import Mathlib

/-!
Verification of the job-graph / file-store core of the workflow engine
(`src/toil/job.py`) against its natural-language specification.

The embedding is shallow: jobs of one in-memory job graph are vertices
`Fin n`; the mutable adjacency produced by `Job.addChild` /
`Job.addFollowOn` is a pair of successor-list functions, and
`Job._directPredecessors` (maintained by `Job._addPredecessor`) is the
derived inverse.  Recursive traversals of the Python source are embedded
as executable worklist/fueled recursions computing the same sets; the
cache-tracking state of `Job.CachedFileStore` is embedded as explicit
state passing with an integer arithmetic model of the pickled
`_CacheState` record and a small model of the node's filesystem.
-/

deriving instance DecidableEq for Except

namespace ToilSpec

/-- A job graph as wired by `Job.addChild` / `Job.addFollowOn` /
`Job.addService` (`job.py` 125-198).  `children j` mirrors
`j._children`, `followOns j` mirrors `j._followOns`, `servicesCount j`
mirrors `len(j._services)` and `checkpoint j` mirrors `j.checkpoint`. -/
structure JGraph (n : Nat) where
  children : Fin n → List (Fin n)
  followOns : Fin n → List (Fin n)
  servicesCount : Fin n → Nat
  checkpoint : Fin n → Bool

namespace JGraph

variable {n : Nat}

/-- `j._directPredecessors` derived from the forward edges: `addChild` and
`addFollowOn` are the only callers of `_addPredecessor` (`job.py` 134-135,
157-158), so `p` is a direct predecessor of `j` exactly when `j` occurs
among `p`'s children or follow-ons. -/
def preds (g : JGraph n) (j : Fin n) : List (Fin n) :=
  (List.finRange n).filter (fun p => j ∈ g.children p ++ g.followOns p)

/-- Directed successor lists: `job._children + job._followOns`, the
traversal order used by `Job._dfs` (`job.py` 2081). -/
def dirNb (g : JGraph n) (v : Fin n) : List (Fin n) :=
  g.children v ++ g.followOns v

/-- Neighbour function of `Job.getRootJobs` (`job.py` 348-357): the
traversal explores a job's direct predecessors and then its children and
follow-ons, i.e. the undirected neighbourhood. -/
def undirNb (g : JGraph n) (v : Fin n) : List (Fin n) :=
  g.preds v ++ g.children v ++ g.followOns v

end JGraph

/-- One step along a successor-list function: `v` is listed as a
neighbour of `u`. -/
def NbStep {n : Nat} (nb : Fin n → List (Fin n)) (u v : Fin n) : Prop :=
  v ∈ nb u

instance {n : Nat} (nb : Fin n → List (Fin n)) (u v : Fin n) : Decidable (NbStep nb u v) :=
  inferInstanceAs (Decidable (v ∈ nb u))

/-- Generic embedding of the source's recursive set-collecting DFS
traversals (`Job.getRootJobs`'s `getRoots`, `Job._dfs`): the recursion
"if not visited: mark visited, recurse on neighbours" computes exactly
the set of vertices reachable from the initial worklist, and only that
set is consumed by the source, so the traversal is embedded as a
worklist loop accumulating the visited list.  The structural variant
used by the graph functions; the fuel of `nbFuel` is sufficient (the
traversal then agrees with the fuel-free `dfsClosureW`). -/
def dfsClosure {n : Nat} (nb : Fin n → List (Fin n)) :
    Nat → List (Fin n) → List (Fin n) → List (Fin n)
  | 0, visited, _ => visited
  | _+1, visited, [] => visited
  | fuel+1, visited, v :: ws =>
    if v ∈ visited then dfsClosure nb fuel visited ws
    else dfsClosure nb fuel (v :: visited) (nb v ++ ws)

/-- The fuel-free form of `dfsClosure`, recursing on the number of
unvisited vertices; the semantic lemmas are proved about this form. -/
def dfsClosureW {n : Nat} (nb : Fin n → List (Fin n)) :
    List (Fin n) → List (Fin n) → List (Fin n)
  | visited, [] => visited
  | visited, v :: ws =>
    if v ∈ visited then dfsClosureW nb visited ws
    else dfsClosureW nb (v :: visited) (nb v ++ ws)
termination_by visited ws => ((Finset.univ \ visited.toFinset).card, ws.length)
decreasing_by
  · exact Prod.Lex.right _ (Nat.lt_succ_self _)
  · apply Prod.Lex.left
    apply Finset.card_lt_card
    constructor
    · intro x hx
      simp only [Finset.mem_sdiff, List.toFinset_cons, Finset.mem_insert,
        List.mem_toFinset] at hx ⊢
      exact ⟨hx.1, fun h => hx.2 (Or.inr h)⟩
    · intro hsub
      have hv : v ∈ Finset.univ \ visited.toFinset := by
        simp only [Finset.mem_sdiff, Finset.mem_univ, List.mem_toFinset, true_and]
        assumption
      have := hsub hv
      simp only [Finset.mem_sdiff, List.toFinset_cons, Finset.mem_insert,
        List.mem_toFinset, true_or, not_true] at this
      exact this.2

/-- A fuel sufficient for `dfsClosure` to run to completion from an
empty visited list: each of the at most `n` fresh visits enqueues at
most the longest neighbour list. -/
def nbFuel {n : Nat} (nb : Fin n → List (Fin n)) (ws : List (Fin n)) : Nat :=
  ws.length + n * (1 + ((List.finRange n).map (fun v => (nb v).length)).sum)

/-- Outcome of a validation check: `deadlock` stands for raising
`JobGraphDeadlockException`; `fuelOut` is the embedding's fuel
exhaustion marker (unreachable for the fuel used by the wrappers, since
the source recursion depth is bounded by the number of fresh vertices
pushed). -/
inductive GraphOutcome
  | deadlock
  | fuelOut
deriving DecidableEq, Repr

namespace JGraph

variable {n : Nat}

/-- `Job.getRootJobs` (`job.py` 338-359): traverse the undirected
component of `s` and collect the visited jobs with no direct
predecessor. -/
def getRootJobs (g : JGraph n) (s : Fin n) : List (Fin n) :=
  (dfsClosure g.undirNb (nbFuel g.undirNb [s]) [] [s]).filter (fun j => g.preds j = [])

/-- `Job.checkJobGraphConnected` (`job.py` 361-372): raise
`JobGraphDeadlockException` unless `getRootJobs` yields exactly one
job. -/
def checkJobGraphConnected (g : JGraph n) (s : Fin n) : Except GraphOutcome Unit :=
  if (getRootJobs g s).length ≠ 1 then .error .deadlock else .ok ()

/-- `Job._dfs` started from each vertex of `starts` with a shared
visited set (`job.py` 2075-2082): all jobs reachable on a directed
child/follow-on path from `starts`. -/
def descendants (g : JGraph n) (starts : List (Fin n)) : List (Fin n) :=
  dfsClosure g.dirNb (nbFuel g.dirNb starts) [] starts

/-- `Job._getImpliedEdges` (`job.py` 2098-2122), transposed to give the
implied-edge list of one vertex `d`: for every job `j` of `nodes` that
has follow-ons and reaches `d` by a directed path starting with a child
edge, `j._followOns` is appended to `extraEdges[d]`.  (The source
iterates a Python set, so the concatenation order is unspecified there;
`nodes` order is used here.) -/
def impliedEdges (g : JGraph n) (nodes : List (Fin n)) (d : Fin n) : List (Fin n) :=
  nodes.foldl (fun acc j =>
    if g.followOns j ≠ [] ∧ d ∈ descendants g (g.children j) then acc ++ g.followOns j
    else acc) []

end JGraph

mutual
/-- `Job._checkJobGraphAcylicDFS` (`job.py` 2084-2096): DFS over
children, follow-ons and the extra implied edges, raising
`JobGraphDeadlockException` when a vertex already on the recursion stack
is reached.  The Python recursion's stack push/recursion/pop is embedded
by passing `stack ++ [v]` to the successor loop; the trailing
`if self in stack` check of the source is mirrored after the loop. -/
def cdfsVisit {n : Nat} (g : JGraph n) (ex : Fin n → List (Fin n)) :
    Nat → List (Fin n) → List (Fin n) → Fin n → Except GraphOutcome (List (Fin n))
  | 0, _, _, _ => .error .fuelOut
  | fuel+1, visited, stack, v =>
    if v ∈ visited then
      if v ∈ stack then .error .deadlock else .ok visited
    else
      match cdfsSuccs g ex fuel (v :: visited) (stack ++ [v])
          (g.children v ++ g.followOns v ++ ex v) with
      | .error e => .error e
      | .ok vis => if v ∈ stack then .error .deadlock else .ok vis

/-- The `for successor in ...` loop of `Job._checkJobGraphAcylicDFS`,
threading the visited set and propagating the first exception. -/
def cdfsSuccs {n : Nat} (g : JGraph n) (ex : Fin n → List (Fin n)) :
    Nat → List (Fin n) → List (Fin n) → List (Fin n) → Except GraphOutcome (List (Fin n))
  | 0, _, _, _ => .error .fuelOut
  | _+1, visited, _, [] => .ok visited
  | fuel+1, visited, stack, u :: us =>
    match cdfsVisit g ex fuel visited stack u with
    | .error e => .error e
    | .ok vis => cdfsSuccs g ex fuel vis stack us
end

/-- The `for root in roots` loop of `Job.checkJobGraphAcylic`
(`job.py` 399-401): a fresh stack per root, one shared visited set. -/
def cdfsRoots {n : Nat} (g : JGraph n) (ex : Fin n → List (Fin n)) (fuel : Nat) :
    List (Fin n) → List (Fin n) → Except GraphOutcome (List (Fin n))
  | visited, [] => .ok visited
  | visited, r :: rs =>
    match cdfsVisit g ex fuel visited [] r with
    | .error e => .error e
    | .ok vis => cdfsRoots g ex fuel vis rs

namespace JGraph

variable {n : Nat}

/-- `Job.checkJobGraphAcylic` (`job.py` 374-401): raise when the
component has no root; otherwise run the cycle-detecting DFS from every
root over the union of child, follow-on and implied edges. -/
def checkJobGraphAcylic (g : JGraph n) (s : Fin n) : Except GraphOutcome Unit :=
  let roots := getRootJobs g s
  if roots = [] then .error .deadlock
  else
    let nodes := descendants g roots
    let ex := impliedEdges g nodes
    let fuel := 2 + n + ((List.finRange n).map
      (fun v => (g.children v ++ g.followOns v ++ ex v).length)).sum
    match cdfsRoots g ex fuel [] roots with
    | .error e => .error e
    | .ok _ => .ok ()

/-- `Job.checkNewCheckpointsAreLeafVertices` (`job.py` 403-427): for
every non-root job of the component with `checkpoint=True`, the source
raises only when its children AND its follow-ons AND its services are
all non-empty (the conjunction on line 426). -/
def checkNewCheckpointsAreLeafVertices (g : JGraph n) (s : Fin n) :
    Except GraphOutcome Unit :=
  let roots := getRootJobs g s
  let jobs := descendants g roots
  if jobs.any (fun y => g.checkpoint y && decide (y ∉ roots) &&
      decide (g.children y ≠ []) && decide (g.followOns y ≠ []) &&
      decide (g.servicesCount y ≠ 0)) then
    .error .deadlock
  else .ok ()

/-- `Job.checkJobGraphForDeadlocks` (`job.py` 324-336): the three checks
in source order. -/
def checkJobGraphForDeadlocks (g : JGraph n) (s : Fin n) : Except GraphOutcome Unit := do
  checkJobGraphConnected g s
  checkJobGraphAcylic g s
  checkNewCheckpointsAreLeafVertices g s

end JGraph

mutual
/-- `getRunOrder` inside `Job.getTopologicalOrderingOfJobs`
(`job.py` 2201-2210).  The source keeps `visited` and `ordering` in
lockstep (every element added to one is appended to the other), so a
single list serves as both: the predecessor guard returns early, then an
unvisited job is appended and its successors are visited. -/
def topoVisit {n : Nat} (g : JGraph n) : Nat → List (Fin n) → Fin n → List (Fin n)
  | 0, ordering, _ => ordering
  | fuel+1, ordering, v =>
    if (g.preds v).any (fun p => decide (p ∉ ordering)) then ordering
    else if v ∈ ordering then ordering
    else topoSuccs g fuel (ordering ++ [v]) (g.children v ++ g.followOns v)

/-- The `map(getRunOrder, job._children + job._followOns)` loop of
`Job.getTopologicalOrderingOfJobs`. -/
def topoSuccs {n : Nat} (g : JGraph n) : Nat → List (Fin n) → List (Fin n) → List (Fin n)
  | 0, ordering, _ => ordering
  | _+1, ordering, [] => ordering
  | fuel+1, ordering, u :: us => topoSuccs g fuel (topoVisit g fuel ordering u) us
end

namespace JGraph

variable {n : Nat}

/-- `Job.getTopologicalOrderingOfJobs` (`job.py` 2193-2212), started
from the job it is invoked on. -/
def getTopologicalOrderingOfJobs (g : JGraph n) (s : Fin n) : List (Fin n) :=
  topoVisit g (2 + n + ((List.finRange n).map (fun v => (g.dirNb v).length)).sum) [] s

/-- Specification-side well-formedness of a (partial) run order:
distinct jobs, closed under direct predecessors, no job listed before
one of its direct predecessors, and no listed job its own
predecessor. -/
def TopoSorted (g : JGraph n) (o : List (Fin n)) : Prop :=
  o.Nodup ∧ (∀ x ∈ o, ∀ p ∈ g.preds x, p ∈ o) ∧
    o.Pairwise (fun a b => b ∉ g.preds a) ∧ (∀ x ∈ o, x ∉ g.preds x)

/-- Undirected reachability along child/follow-on edges: the connected
component explored by `getRootJobs`. -/
def UndirReach (g : JGraph n) (s x : Fin n) : Prop :=
  Relation.ReflTransGen (NbStep g.undirNb) s x

/-- A directed child/follow-on edge. -/
def DirStep (g : JGraph n) (u v : Fin n) : Prop :=
  NbStep g.dirNb u v

/-- The specification's implied edge: for a follow-on edge `(a, b)`, an
edge to `b` from every job reachable from `a` via an initial child edge
(`a`'s children and, transitively, their children/follow-ons). -/
def ImpliedSpecEdge (g : JGraph n) (d b : Fin n) : Prop :=
  ∃ a, b ∈ g.followOns a ∧ ∃ c ∈ g.children a, Relation.ReflTransGen (DirStep g) c d

/-- An edge of the specification's *augmented graph*: child, follow-on
or implied. -/
def AugEdge (g : JGraph n) (u v : Fin n) : Prop :=
  v ∈ g.children u ∨ v ∈ g.followOns u ∨ ImpliedSpecEdge g u v

/-- The augmented graph contains a directed cycle. -/
def AugCycle (g : JGraph n) : Prop :=
  ∃ v, Relation.TransGen (AugEdge g) v v

end JGraph

/-! Concrete graphs used as inputs.  Vertices are numbered in creation
order; all are built by legal `addChild`/`addFollowOn` call sequences
(no duplicate predecessor edge, so `_addPredecessor` never raises). -/

/-- `R.addChild(C); A.addChild(B); B.addChild(A); A.addChild(C)` with
`R = 0`, `C = 1`, `A = 2`, `B = 3`: a two-job directed cycle hanging off
the single-rooted component without being reachable from the root. -/
def gHiddenCycle : JGraph 4 :=
  { children := ![[1], [], [3, 1], [2]], followOns := ![[], [], [], []],
    servicesCount := ![0, 0, 0, 0], checkpoint := ![false, false, false, false] }

/-- The specification's augmented-graph scenario
`A.addChild(B); A.addChild(C); B.addFollowOn(C); C.addChild(B)` with
`A = 0`, `B = 1`, `C = 2`. -/
def gScenario : JGraph 3 :=
  { children := ![[1, 2], [], [1]], followOns := ![[], [2], []],
    servicesCount := ![0, 0, 0], checkpoint := ![false, false, false] }

/-- `A.addChild(B); B.addChild(A)` with `A = 0`, `B = 1`. -/
def gTwoCycle : JGraph 2 :=
  { children := ![[1], [0]], followOns := ![[], []],
    servicesCount := ![0, 0], checkpoint := ![false, false] }

/-- `R.addChild(C); C.addChild(D)` with `R = 0`, `C = 1` (a checkpoint
job) and `D = 2`: a non-root checkpoint job that has a child but no
follow-ons and no services. -/
def gCheckpointChild : JGraph 3 :=
  { children := ![[1], [2], []], followOns := ![[], [], []],
    servicesCount := ![0, 0, 0], checkpoint := ![false, true, false] }

/-! ### C5: the wrapper-stack merge of `Job._serialiseExistingJob` -/

/-- The stack surgery of `Job._serialiseExistingJob` (`job.py`
2361-2377): `assert len(stack) >= 4` (modelled by `none`), then
`combinedChildren = stack[-1] + stack[-3]`,
`combinedFollowOns = stack[-2] + stack[-4]`, the last four batches are
dropped and the non-empty merged batches appended, follow-ons first. -/
def mergeStack {α : Type} (stack : List (List α)) : Option (List (List α)) :=
  if stack.length < 4 then none
  else
    let s1 := stack.dropLast
    let s2 := s1.dropLast
    let s3 := s2.dropLast
    let combinedChildren := stack.getLastD [] ++ s2.getLastD []
    let combinedFollowOns := s1.getLastD [] ++ s3.getLastD []
    let base := s3.dropLast
    some (base ++ (if combinedFollowOns.length > 0 then [combinedFollowOns] else [])
               ++ (if combinedChildren.length > 0 then [combinedChildren] else []))

/-! ### C6: promises and lazy placeholder-file allocation -/

/-- The job store as seen by `Promise.__reduce__`: `getEmptyFileStoreID`
allocates a fresh empty placeholder file (`job.py` 316). -/
structure PromiseStore where
  nextId : Nat
  files : List Nat
deriving DecidableEq, Repr

/-- `jobStore.getEmptyFileStoreID()`: returns a fresh ID after creating
the (empty) file in the store. -/
def PromiseStore.getEmptyFileStoreID (s : PromiseStore) : Nat × PromiseStore :=
  (s.nextId, ⟨s.nextId + 1, s.files ++ [s.nextId]⟩)

/-- The promise-relevant state of a `Job`: whether `_promiseJobStore` is
set, and `_rvs`, the `defaultdict(list)` from return-value index (`none`
is the whole-value sentinel) to placeholder file IDs (`job.py`
109-110). -/
structure PJob where
  promiseJobStore : Bool
  rvs : List (Option Nat × List Nat)
deriving DecidableEq, Repr

/-- `self._rvs[index].append(fid)` on a `defaultdict(list)`. -/
def rvsAppend (rvs : List (Option Nat × List Nat)) (index : Option Nat) (fid : Nat) :
    List (Option Nat × List Nat) :=
  match rvs with
  | [] => [(index, [fid])]
  | (i, l) :: rest =>
    if i = index then (i, l ++ [fid]) :: rest else (i, l) :: rvsAppend rest index fid

/-- Lookup in `_rvs` (missing key reads as the empty list). -/
def rvsGet (rvs : List (Option Nat × List Nat)) (index : Option Nat) : List Nat :=
  match rvs with
  | [] => []
  | (i, l) :: rest => if i = index then l else rvsGet rest index

/-- A `Promise(job, index)` as returned by `Job.rv` (`job.py` 295-310,
2689-2694): it records the owning job and the index and touches neither
the job's `_rvs` nor the job store. -/
structure PromiseTok where
  index : Option Nat
deriving DecidableEq, Repr

/-- `Job.rv(index)` (`job.py` 295-310): construct the promise; the job
and the job store are returned unchanged because the source constructor
performs no store interaction. -/
def rvOp (j : PJob) (s : PromiseStore) (index : Option Nat) :
    PromiseTok × PJob × PromiseStore :=
  (⟨index⟩, j, s)

/-- `Job.allocatePromiseFile` (`job.py` 312-318): `RuntimeError` when
`_promiseJobStore` is unset, else allocate one empty placeholder file
and append its ID to `_rvs[index]`. -/
def allocatePromiseFile (j : PJob) (s : PromiseStore) (index : Option Nat) :
    Except Unit (Nat × PJob × PromiseStore) :=
  if ¬ j.promiseJobStore then .error ()
  else
    let (fid, s') := s.getEmptyFileStoreID
    .ok (fid, { j with rvs := rvsAppend j.rvs index fid }, s')

/-- `Promise.__reduce__` (`job.py` 2696-2709): pickling the promise
calls back into the owning job's `allocatePromiseFile`. -/
def promiseReduce (p : PromiseTok) (j : PJob) (s : PromiseStore) :
    Except Unit (Nat × PJob × PromiseStore) :=
  allocatePromiseFile j s p.index

/-! ### C4: the commit protocol `Job.FileStore._updateJobWhenDone` -/

/-- Events of the sequential body of `asyncUpdate` inside
`Job.FileStore._updateJobWhenDone` (`job.py` 830-869), in the order the
statements execute them. -/
inductive CommitEvent
  | poisonPill
  | joinWorker (i : Nat)
  | blockFnReturn
  | stampFilesToDelete
  | updateWrapper
  | deleteWrapper (j : Nat)
  | deleteStoreFile (f : Nat)
  | clearFilesToDelete
deriving DecidableEq, Repr

/-- The trace of `asyncUpdate` (`job.py` 830-869): enqueue one poison
pill per worker, join every worker, wait for the input block function,
then — unless the terminate event is set, which aborts with
`RuntimeError` — stamp `wrapper.filesToDelete`, update the wrapper,
delete the staged wrappers then the staged files, and when files were
deleted clear `filesToDelete` and update again.  The returned `Bool` is
success (no exception raised). -/
def asyncUpdateTrace (numWorkers : Nat) (terminateSet : Bool)
    (jobsToDelete filesToDelete : List Nat) : Bool × List CommitEvent :=
  let pre := List.replicate numWorkers CommitEvent.poisonPill
      ++ (List.range numWorkers).map CommitEvent.joinWorker
      ++ [CommitEvent.blockFnReturn]
  if terminateSet then (false, pre)
  else (true,
    pre ++ [CommitEvent.stampFilesToDelete, CommitEvent.updateWrapper]
        ++ jobsToDelete.map CommitEvent.deleteWrapper
        ++ filesToDelete.map CommitEvent.deleteStoreFile
        ++ (if filesToDelete.length > 0 then
              [CommitEvent.clearFilesToDelete, CommitEvent.updateWrapper] else []))

/-! ### Association-list helpers: Python `dict` with insertion order -/

/-- `d.get(k)` / `d[k]` read. -/
def alistLookup {κ ν : Type} [DecidableEq κ] : List (κ × ν) → κ → Option ν
  | [], _ => none
  | (k, v) :: rest, key => if k = key then some v else alistLookup rest key

/-- `d[k] = v`: update in place, or append a new key. -/
def alistSet {κ ν : Type} [DecidableEq κ] : List (κ × ν) → κ → ν → List (κ × ν)
  | [], key, val => [(key, val)]
  | (k, v) :: rest, key, val =>
    if k = key then (k, val) :: rest else (k, v) :: alistSet rest key val

/-- `d.pop(k)`. -/
def alistPop {κ ν : Type} [DecidableEq κ] : List (κ × ν) → κ → List (κ × ν)
  | [], _ => []
  | (k, v) :: rest, key => if k = key then rest else (k, v) :: alistPop rest key

/-! ### C10 (baseline side): `Job.FileStore` deletion staging -/

/-- Error raised by the baseline `FileStore` read operations. -/
inductive BaseErr
  | deletedAccess   -- RuntimeError: access to a file staged for deletion
deriving DecidableEq, Repr

/-- The deletion-relevant state of a baseline `Job.FileStore`
(`job.py` 495-805): the staged-deletion set `filesToDelete`, the
local-copy map `_jobStoreFileIDToCacheLocation`, and counters standing
for the job store's fresh-ID source and `getLocalTempFile`. -/
structure BaseFileStore where
  filesToDelete : List Nat
  cacheMap : List (Nat × Nat)
  nextFileId : Nat
  nextTemp : Nat
deriving DecidableEq, Repr

/-- `Job.FileStore.writeGlobalFile` (`job.py` 630-667): a path inside
the local temp dir is queued asynchronously and registered in the
local-copy map; any other path is written synchronously.  Either way a
fresh file ID is returned. -/
def baseWriteGlobalFile (fs : BaseFileStore) (isLocal : Bool) (path : Nat) :
    Nat × BaseFileStore :=
  let fid := fs.nextFileId
  if isLocal then
    (fid, { fs with nextFileId := fid + 1, cacheMap := alistSet fs.cacheMap fid path })
  else
    (fid, { fs with nextFileId := fid + 1 })

/-- `Job.FileStore.readGlobalFile` (`job.py` 682-767): refuse a file
staged for deletion, else serve from the local-copy map (hard link for
immutable cached reads, copy otherwise) or read from the job store,
registering the fresh local copy when caching applies. -/
def baseReadGlobalFile (fs : BaseFileStore) (fid : Nat)
    (userPath : Option (Nat × Bool)) (cache mutable : Bool) :
    Except BaseErr (Nat × BaseFileStore) :=
  if fid ∈ fs.filesToDelete then .error .deletedAccess
  else
    -- caching is switched off when the user path is outside the temp dir
    let cacheOn := match userPath with
      | some (_, isLocal) => cache && isLocal
      | none => cache
    match alistLookup fs.cacheMap fid with
    | some cachedPath =>
      if cacheOn && !mutable then
        match userPath with
        | none => .ok (cachedPath, fs)
        | some (p, _) => .ok (if p = cachedPath then cachedPath else p, fs)
      else
        match userPath with
        | some (p, _) => .ok (p, fs)
        | none => .ok (fs.nextTemp, { fs with nextTemp := fs.nextTemp + 1 })
    | none =>
      let (localFilePath, fs) := match userPath with
        | some (p, _) => (p, fs)
        | none => (fs.nextTemp, { fs with nextTemp := fs.nextTemp + 1 })
      if cacheOn then
        .ok (localFilePath, { fs with cacheMap := alistSet fs.cacheMap fid localFilePath })
      else .ok (localFilePath, fs)

/-- `Job.FileStore.readGlobalFileStream` (`job.py` 769-790): refuse a
file staged for deletion, else yield a handle (the `Bool` records
whether it comes from the local copy). -/
def baseReadGlobalFileStream (fs : BaseFileStore) (fid : Nat) : Except BaseErr Bool :=
  if fid ∈ fs.filesToDelete then .error .deletedAccess
  else .ok ((alistLookup fs.cacheMap fid).isSome)

/-- `Job.FileStore.deleteGlobalFile` (`job.py` 792-805): stage the ID
for post-run deletion and drop it from the local-copy map. -/
def baseDeleteGlobalFile (fs : BaseFileStore) (fid : Nat) : BaseFileStore :=
  { fs with
    filesToDelete :=
      if fid ∈ fs.filesToDelete then fs.filesToDelete else fs.filesToDelete ++ [fid],
    cacheMap := alistPop fs.cacheMap fid }

/-- The baseline `FileStore` operations a job may interleave. -/
inductive BaseOp
  | writeGlobal (isLocal : Bool) (path : Nat)
  | readGlobal (fid : Nat) (userPath : Option (Nat × Bool)) (cache mutable : Bool)
  | readStream (fid : Nat)
  | deleteGlobal (fid : Nat)
deriving DecidableEq, Repr

/-- Apply one baseline operation, keeping the resulting store state. -/
def applyBaseOp (fs : BaseFileStore) : BaseOp → Except BaseErr BaseFileStore
  | .writeGlobal isLocal path => .ok (baseWriteGlobalFile fs isLocal path).2
  | .readGlobal fid up c m => (baseReadGlobalFile fs fid up c m).map Prod.snd
  | .readStream fid => (baseReadGlobalFileStream fs fid).map (fun _ => fs)
  | .deleteGlobal fid => .ok (baseDeleteGlobalFile fs fid)

/-- A sequence of baseline operations completing successfully. -/
def runBaseOps : BaseFileStore → List BaseOp → Except BaseErr BaseFileStore
  | fs, [] => .ok fs
  | fs, op :: ops =>
    match applyBaseOp fs op with
    | .error e => .error e
    | .ok fs' => runBaseOps fs' ops

/-! ### C9: service wiring (`Job.addService`, `Job.Service._addChild`) -/

/-- The wiring-relevant attributes of a `Job.Service`:
`hasParentFlag` is `_hasParent` (`job.py` 1915), `parentFlag` is the
`_parent` attribute written by `Service._addChild` (`job.py` 1964) and
read nowhere, and `childServices` holds the services wrapped by the
`ServiceJob`s of `_childServices`. -/
structure ServiceSt where
  hasParentFlag : Bool
  parentFlag : Bool
  childServices : List Nat
deriving DecidableEq, Repr

/-- A freshly constructed `Service` (`job.py` 1906-1916). -/
def freshService : ServiceSt := ⟨false, false, []⟩

/-- Services by identity plus this job's `_services` list (the services
wrapped by its `ServiceJob`s). -/
structure SvcWorld where
  svc : List (Nat × ServiceSt)
  jobServices : List Nat
deriving DecidableEq, Repr

/-- Attribute read on a service object. -/
def svcGet (w : SvcWorld) (s : Nat) : ServiceSt := (alistLookup w.svc s).getD freshService

/-- The recursive `check(services)` of `Job.addService`
(`job.py` 184-188): DFS over the job's own service forest comparing
wrapped services with `parentService` by identity.  Fueled; the source
recursion is bounded by the forest depth on the acyclic states it is
run on. -/
def svcCheck (w : SvcWorld) : Nat → Nat → List Nat → Bool
  | 0, _, _ => false
  | fuel+1, parent, services =>
    services.any (fun jS => jS = parent || svcCheck w fuel parent (svcGet w jS).childServices)

/-- `Job.Service._addChild` (`job.py` 1950-1967): raise `JobException`
when `service._hasParent` is set; otherwise the source assigns
`service._parent = True` (line 1964) — *not* `_hasParent` — wraps the
service in a `ServiceJob` and appends it to the parent's
`_childServices`. -/
def serviceAddChild (w : SvcWorld) (parent s : Nat) : Except Unit SvcWorld :=
  if (svcGet w s).hasParentFlag then .error ()
  else
    let w1 : SvcWorld := { w with svc := alistSet w.svc s { svcGet w s with parentFlag := true } }
    let pSt := { svcGet w1 parent with
      childServices := (svcGet w1 parent).childServices ++ [s] }
    .ok { w1 with svc := alistSet w1.svc parent pSt }

/-- `Job.addService` (`job.py` 161-198): with a `parentService`, require
the parent to be found by the DFS over this job's service forest and
delegate to `_addChild`; without one, raise if `service._hasParent` is
set, else set it and append the wrapped service to `_services`. -/
def addServiceOp (w : SvcWorld) (s : Nat) (parentService : Option Nat) :
    Except Unit SvcWorld :=
  match parentService with
  | some parent =>
    if ¬ svcCheck w (w.svc.length + 1) parent w.jobServices then .error ()
    else serviceAddChild w parent s
  | none =>
    if (svcGet w s).hasParentFlag then .error ()
    else
      let w1 : SvcWorld := { w with svc := alistSet w.svc s { svcGet w s with hasParentFlag := true } }
      .ok { w1 with jobServices := w1.jobServices ++ [s] }

/-- Two fresh services known to a job. -/
def svcWorld0 : SvcWorld := { svc := [(1, freshService), (2, freshService)], jobServices := [] }

/-! ### C1 / C10 (cached side): `Job.CachedFileStore` and `_CacheState`

The pickled `_CacheState` record is embedded literally; the node's
filesystem is modelled by the cache directory's entries (with size and
modification time) and the local files (with size and, for hard links
into the cache, the cache entry they share an inode with), which
supplies every `os.stat`/`os.link`/`os.remove` fact the source
consults.  `cacheInfo.write` calls are modelled by `CWorld.commit`,
which records the committed snapshot. -/

abbrev FileId := Nat
abbrev PathId := Nat
abbrev JobId := Nat

/-- Failure modes of the cached file store: Python `assert` failures,
`CacheError`, `CacheInvalidSrcError`, and other runtime crashes
(missing files, unbound locals). -/
inductive CacheOpErr
  | assertionFailed
  | cacheError
  | cacheInvalidSrc
  | runtimeFailure
deriving DecidableEq, Repr

/-- `CachedFileStore._JobState` (`job.py` 1834-1899): the job's
remaining disk requirement, `jobSpecificFiles : fid ↦ {path ↦ size}`
(`none` is the Python `None` path used for non-local writes) and the
reverse map `filesToFSIDs`. -/
structure JState where
  jobReqs : Int
  jobSpecificFiles : List (FileId × List (Option PathId × Int))
  filesToFSIDs : List (Option PathId × List FileId)
deriving DecidableEq, Repr

/-- `CachedFileStore._CacheState` (`job.py` 1748-1817): the pickled
record `{nlink, attemptNumber, total, cached, sigmaJob, jobState}`. -/
structure CacheState where
  nlink : Nat
  attemptNumber : Nat
  total : Int
  cached : Int
  sigmaJob : Int
  jobState : List (JobId × JState)
deriving DecidableEq, Repr

/-- `_CacheState.isBalanced` (`job.py` 1798-1806):
`cached + sigmaJob <= total`. -/
def CacheState.isBalanced (c : CacheState) : Bool :=
  decide (c.cached + c.sigmaJob ≤ c.total)

/-- `_JobState.addToJobSpecFiles` (`job.py` 1860-1885): record
`(fid, path) ↦ size` (a present non-zero entry raises `RuntimeError`),
add `fid` to `filesToFSIDs[path]`, and when `cached` is `True` return
the file's size to the job's requirements
(`updateJobReqs(fileSize, 'add')`, i.e. `jobReqs -= fileSize`). -/
def JState.addToJobSpecFiles (js : JState) (fid : FileId) (path : Option PathId)
    (size : Int) (cached : Option Bool) : Except CacheOpErr JState :=
  let inner := (alistLookup js.jobSpecificFiles fid).getD []
  match (if inner = [] then some (alistSet inner path size)
         else if (alistLookup inner path).getD 0 = 0 then some (alistSet inner path size)
         else none) with
  | none => .error .runtimeFailure
  | some inner' =>
    let owned := (alistLookup js.filesToFSIDs path).getD []
    let owned' := if fid ∈ owned then owned else owned ++ [fid]
    let js' := { js with
      jobSpecificFiles := alistSet js.jobSpecificFiles fid inner',
      filesToFSIDs := alistSet js.filesToFSIDs path owned' }
    .ok (if cached = some true then { js' with jobReqs := js'.jobReqs - size } else js')

/-- A file in the node's cache directory: its size and the modification
time consulted by the eviction scan. -/
structure CacheEntry where
  size : Int
  mtime : Nat
deriving DecidableEq, Repr

/-- A file on the local filesystem outside the cache directory:
`linkedTo` is the cache entry it shares an inode with, when it was
produced by `os.link` from/to the cache. -/
structure LocalFile where
  size : Int
  linkedTo : Option FileId
deriving DecidableEq, Repr

/-- The node filesystem model: cache directory contents, local files, a
clock supplying modification times and a counter standing for
`getLocalTempFileName`. -/
structure FSModel where
  cacheEntries : List (FileId × CacheEntry)
  localFiles : List (PathId × LocalFile)
  clock : Nat
  nextPath : PathId
deriving DecidableEq, Repr

/-- `os.stat(cachedFile).st_nlink`: the cache directory's own link, the
job store's link when the store shares the device (`th = 2`), plus one
per local hard link. -/
def FSModel.nlinkOf (fs : FSModel) (th : Nat) (f : FileId) : Nat :=
  th + (fs.localFiles.filter (fun p => p.2.linkedTo = some f)).length

/-- `CachedFileStore._fileIsCached`. -/
def FSModel.cacheHas (fs : FSModel) (f : FileId) : Bool :=
  (alistLookup fs.cacheEntries f).isSome

/-- The world a `CachedFileStore` operation acts on: the current
content of the `_cacheState` file, the filesystem, the job store's
files, a fresh-ID counter, each job's `filesToDelete` set, and the
history of committed `_cacheState` snapshots (newest first). -/
structure CWorld where
  cs : CacheState
  fs : FSModel
  storeFiles : List (FileId × Int)
  nextFileId : FileId
  jobFilesToDelete : List (JobId × List FileId)
  committed : List CacheState
deriving DecidableEq, Repr

/-- `cacheInfo.write(self.cacheStateFile)`: atomically replace the
state file, recording the snapshot. -/
def CWorld.commit (w : CWorld) (c : CacheState) : CWorld :=
  { w with cs := c, committed := c :: w.committed }

/-- This job's `self.filesToDelete`. -/
def CWorld.ftd (w : CWorld) (j : JobId) : List FileId :=
  (alistLookup w.jobFilesToDelete j).getD []

/-- `self.filesToDelete.add(fid)`. -/
def CWorld.addFtd (w : CWorld) (j : JobId) (f : FileId) : CWorld :=
  { w with jobFilesToDelete :=
      alistSet w.jobFilesToDelete j (if f ∈ w.ftd j then w.ftd j else w.ftd j ++ [f]) }

/-- `CachedFileStore.returnFileSize` (`job.py` 1575-1605): stat the
source file, add its size to `cached` unless it was already cached or
the link threshold is 2, subtract it from `sigmaJob` (an unbalanced
result is only a logged warning), record the file against the job with
`cached=True`, and write the state file. -/
def returnFileSize (th : Nat) (jid : JobId) (fid : FileId) (srcPath : PathId)
    (alreadyCached : Bool) (w : CWorld) : Except CacheOpErr CWorld :=
  match alistLookup w.fs.localFiles srcPath with
  | none => .error .runtimeFailure
  | some lf =>
    let fileSize := lf.size
    let c0 := w.cs
    let c1 := if ¬ alreadyCached ∧ th = 1 then { c0 with cached := c0.cached + fileSize } else c0
    let c2 := { c1 with sigmaJob := c1.sigmaJob - fileSize }
    match alistLookup c2.jobState jid with
    | none => .error .assertionFailed
    | some js =>
      match js.addToJobSpecFiles fid (some srcPath) fileSize (some true) with
      | .error e => .error e
      | .ok js' => .ok (w.commit { c2 with jobState := alistSet c2.jobState jid js' })

/-- `_JobState.updateJobSpecificFiles` (`job.py` 1843-1858): open the
state file under the lock, record the file against the job, write. -/
def updateJobSpecificFiles (jid : JobId) (fid : FileId) (path : Option PathId)
    (size : Int) (cached : Option Bool) (w : CWorld) : Except CacheOpErr CWorld :=
  match alistLookup w.cs.jobState jid with
  | none => .error .assertionFailed
  | some js =>
    match js.addToJobSpecFiles fid path size cached with
    | .error e => .error e
    | .ok js' => .ok (w.commit { w.cs with jobState := alistSet w.cs.jobState jid js' })

/-- `CachedFileStore.addToCache` (`job.py` 1487-1573).  A non-local
source raises `CacheInvalidSrcError` (the same-device check is not
modelled: the model has a single device).  A mutable read copies the
cached file out, adds its size to `cached` (when `nlink != 2`), undoes
the addition and evicts the cache copy if that unbalanced the equation,
and records a `-1`-sized mutable entry.  An immutable read hard-links
the cache copy to the local path; a write hard-links the local file
into the cache (an existing cache entry raises `CacheError`); both then
run `returnFileSize` with `fileAlreadyCached=False`. -/
def addToCache (th : Nat) (jid : JobId) (localPath : PathId) (fid : FileId)
    (isRead : Bool) (mutable : Bool) (isLocalPath : Bool) (w : CWorld) :
    Except CacheOpErr CWorld :=
  if ¬ isLocalPath then .error .cacheInvalidSrc
  else if isRead ∧ mutable then
    match alistLookup w.fs.cacheEntries fid with
    | none => .error .runtimeFailure
    | some ce =>
      let fs1 := { w.fs with localFiles := alistSet w.fs.localFiles localPath ⟨ce.size, none⟩ }
      let fileSize := ce.size
      let c0 := w.cs
      let c1 := { c0 with cached := c0.cached + (if c0.nlink ≠ 2 then fileSize else 0) }
      let cf := if ¬ c1.isBalanced then
          ({ c1 with cached := c1.cached - (if c1.nlink ≠ 2 then fileSize else 0) },
           { fs1 with cacheEntries := alistPop fs1.cacheEntries fid })
        else (c1, fs1)
      match alistLookup cf.1.jobState jid with
      | none => .error .assertionFailed
      | some js =>
        match js.addToJobSpecFiles fid (some localPath) (-1) (some false) with
        | .error e => .error e
        | .ok js' =>
          .ok (({ w with fs := cf.2 }).commit
            { cf.1 with jobState := alistSet cf.1.jobState jid js' })
  else if isRead then
    match alistLookup w.fs.cacheEntries fid with
    | none => .error .runtimeFailure
    | some ce =>
      let fs1 := { w.fs with localFiles := alistSet w.fs.localFiles localPath ⟨ce.size, some fid⟩ }
      returnFileSize th jid fid localPath false { w with fs := fs1 }
  else
    match alistLookup w.fs.localFiles localPath with
    | none => .error .runtimeFailure
    | some lf =>
      if (alistLookup w.fs.cacheEntries fid).isSome then .error .cacheError
      else
        let fs1 := { w.fs with
          cacheEntries := alistSet w.fs.cacheEntries fid ⟨lf.size, w.fs.clock⟩,
          localFiles := alistSet w.fs.localFiles localPath { lf with linkedTo := some fid },
          clock := w.fs.clock + 1 }
        returnFileSize th jid fid localPath false { w with fs := fs1 }

/-- `CachedFileStore.writeGlobalFile` (`job.py` 1019-1081).  For a
local source the three store-write branches (same-device hard link,
asynchronous queue, synchronous write) all leave the content in the job
store under the fresh ID and do not touch the cache state, so they are
modelled uniformly; afterwards a source path not previously produced by
a read is linked into the cache via `addToCache('write')`, else only
recorded with size `0`.  A non-local source is written synchronously
and recorded with a `None` path. -/
def writeGlobalFileC (th : Nat) (jid : JobId) (localPath : PathId) (isLocalPath : Bool)
    (w : CWorld) : Except CacheOpErr (FileId × CWorld) :=
  if isLocalPath then
    match alistLookup w.cs.jobState jid with
    | none => .error .runtimeFailure
    | some js =>
      let jobSpecificPaths := js.filesToFSIDs.map Prod.fst
      match alistLookup w.fs.localFiles localPath with
      | none => .error .runtimeFailure
      | some lf =>
        let fid := w.nextFileId
        let w1 : CWorld := { w with
          nextFileId := fid + 1,
          storeFiles := alistSet w.storeFiles fid lf.size }
        if (some localPath) ∉ jobSpecificPaths then
          match addToCache th jid localPath fid false false true w1 with
          | .error e => .error e
          | .ok w2 => .ok (fid, w2)
        else
          match updateJobSpecificFiles jid fid (some localPath) 0 (some false) w1 with
          | .error e => .error e
          | .ok w2 => .ok (fid, w2)
  else
    match alistLookup w.fs.localFiles localPath with
    | none => .error .runtimeFailure
    | some lf =>
      let fid := w.nextFileId
      let w1 : CWorld := { w with
        nextFileId := fid + 1,
        storeFiles := alistSet w.storeFiles fid lf.size }
      match updateJobSpecificFiles jid fid none 0 (some false) w1 with
      | .error e => .error e
      | .ok w2 => .ok (fid, w2)

/-- `CachedFileStore._accountForNlinkEquals2` (`job.py` 1819-1832):
subtract the linked file's size from `sigmaJob` and return it to the
job's requirements. -/
def accountForNlink2 (jid : JobId) (localPath : PathId) (w : CWorld) :
    Except CacheOpErr CWorld :=
  match alistLookup w.fs.localFiles localPath with
  | none => .error .runtimeFailure
  | some lf =>
    match alistLookup w.cs.jobState jid with
    | none => .error .assertionFailed
    | some js =>
      let js' := { js with jobReqs := js.jobReqs + lf.size }
      .ok (w.commit { w.cs with
        sigmaJob := w.cs.sigmaJob - lf.size,
        jobState := alistSet w.cs.jobState jid js' })

/-- `CachedFileStore.readGlobalFile` (`job.py` 1083-1229): refuse a
file staged for deletion; an existing user path cannot be overwritten.
On a cache hit a mutable read copies out and records a `-1` mutable
entry, an immutable read hard-links and runs `returnFileSize` with
`fileAlreadyCached=True`.  On a miss with caching the file is
downloaded into the cache and handed out via `addToCache('read')` (a
failing store read is swallowed by the bare `except` and the path is
returned with no file behind it).  Otherwise the cache is bypassed: the
file is read to the local path, a mutable read records `-1`, an
immutable one runs `_accountForNlinkEquals2` first when `th = 2` and
records size `0`.  (Harbinger files never persist across the
sequential operations modelled here, so the waiting branch is
unreachable and not modelled.) -/
def readGlobalFileC (th : Nat) (jid : JobId) (fid : FileId)
    (userPath : Option (PathId × Bool)) (cache mutable : Bool) (w : CWorld) :
    Except CacheOpErr (PathId × CWorld) :=
  if fid ∈ w.ftd jid then .error .runtimeFailure
  else
    let trip : PathId × Bool × CWorld × Bool :=
      match userPath with
      | some (p, isLoc) => (p, isLoc, w, (alistLookup w.fs.localFiles p).isSome)
      | none => (w.fs.nextPath, true,
          { w with fs := { w.fs with nextPath := w.fs.nextPath + 1 } }, false)
    let localFilePath := trip.1
    let fileIsLocal := trip.2.1
    let w := trip.2.2.1
    if trip.2.2.2 then .error .runtimeFailure
    else if fileIsLocal ∧ w.fs.cacheHas fid then
      match alistLookup w.fs.cacheEntries fid with
      | none => .error .runtimeFailure
      | some ce =>
        if mutable then
          let fs1 := { w.fs with
            localFiles := alistSet w.fs.localFiles localFilePath ⟨ce.size, none⟩ }
          match alistLookup w.cs.jobState jid with
          | none => .error .runtimeFailure
          | some js =>
            match js.addToJobSpecFiles fid (some localFilePath) (-1) none with
            | .error e => .error e
            | .ok js' =>
              .ok (localFilePath, ({ w with fs := fs1 }).commit
                { w.cs with jobState := alistSet w.cs.jobState jid js' })
        else
          let fs1 := { w.fs with
            localFiles := alistSet w.fs.localFiles localFilePath ⟨ce.size, some fid⟩ }
          match returnFileSize th jid fid localFilePath true { w with fs := fs1 } with
          | .error e => .error e
          | .ok w' => .ok (localFilePath, w')
    else if fileIsLocal ∧ cache then
      match alistLookup w.storeFiles fid with
      | none => .ok (localFilePath, w)
      | some size =>
        let fs1 := { w.fs with
          cacheEntries := alistSet w.fs.cacheEntries fid ⟨size, w.fs.clock⟩,
          clock := w.fs.clock + 1 }
        match addToCache th jid localFilePath fid true mutable true { w with fs := fs1 } with
        | .error e => .error e
        | .ok w' => .ok (localFilePath, w')
    else
      match alistLookup w.storeFiles fid with
      | none => .error .runtimeFailure
      | some size =>
        let fs1 := { w.fs with
          localFiles := alistSet w.fs.localFiles localFilePath ⟨size, none⟩ }
        let w1 := { w with fs := fs1 }
        if mutable then
          match updateJobSpecificFiles jid fid (some localFilePath) (-1) (some false) w1 with
          | .error e => .error e
          | .ok w2 => .ok (localFilePath, w2)
        else
          match (if th = 2 then accountForNlink2 jid localFilePath w1 else .ok w1) with
          | .error e => .error e
          | .ok w2 =>
            match updateJobSpecificFiles jid fid (some localFilePath) 0 (some false) w2 with
            | .error e => .error e
            | .ok w3 => .ok (localFilePath, w3)

/-- `CachedFileStore.readGlobalFileStream` (`job.py` 1231-1249): refuse
a file staged for deletion, else yield a handle (the `Bool` records a
cache hit). -/
def readGlobalFileStreamC (jid : JobId) (fid : FileId) (w : CWorld) :
    Except CacheOpErr Bool :=
  if fid ∈ w.ftd jid then .error .runtimeFailure
  else .ok (w.fs.cacheHas fid)

/-- Eviction order of `cleanCache` (`job.py` 1656-1662): the deletable
files are sorted by `(-mtime, -size)` and popped from the end, i.e.
processed in ascending `(mtime, size)`. -/
def evictKeyLe (a b : FileId × CacheEntry) : Bool :=
  decide (a.2.mtime < b.2.mtime ∨ (a.2.mtime = b.2.mtime ∧ a.2.size ≤ b.2.size))

/-- Insertion into a sorted list. -/
def insertByKey {α : Type} (le : α → α → Bool) (x : α) : List α → List α
  | [] => [x]
  | y :: ys => if le x y then x :: y :: ys else y :: insertByKey le x ys

/-- Insertion sort (the source sorts a set, so stability is moot). -/
def sortByKey {α : Type} (le : α → α → Bool) : List α → List α
  | [] => []
  | x :: xs => insertByKey le x (sortByKey le xs)

/-- The eviction loop of `cleanCache` (`job.py` 1667-1677): while the
equation is unbalanced and candidates remain, remove the next file and
subtract its size from `cached` (unless `th = 2`), asserting
`cached >= 0`; on exhaustion the final `assert isBalanced` fails. -/
def evictLoop (th : Nat) : List (FileId × CacheEntry) → CacheState → FSModel →
    Except CacheOpErr (CacheState × FSModel)
  | l, c, fs =>
    if c.isBalanced then .ok (c, fs)
    else
      match l with
      | [] => .error .assertionFailed
      | (fid, ce) :: rest =>
        let fs' := { fs with cacheEntries := alistPop fs.cacheEntries fid }
        let c' := { c with cached := c.cached - (if th ≠ 2 then ce.size else 0) }
        if c'.cached < 0 then .error .assertionFailed
        else evictLoop th rest c' fs'

/-- `CachedFileStore.cleanCache` (`job.py` 1625-1680): add the new
job's requirement to `sigmaJob`, initialise its `jobState` entry (a
pre-existing entry fails the `assert not ...`), return at once when
balanced, else evict the least-recently-modified cache files whose link
count equals the threshold until balanced. -/
def cleanCacheOp (th : Nat) (jid : JobId) (newJobReqs : Int) (w : CWorld) :
    Except CacheOpErr CWorld :=
  let c0 := w.cs
  let c1 := { c0 with sigmaJob := c0.sigmaJob + newJobReqs }
  if (alistLookup c1.jobState jid).isSome then .error .assertionFailed
  else
    let c2 := { c1 with jobState := alistSet c1.jobState jid ⟨newJobReqs, [], []⟩ }
    if c2.isBalanced then .ok (w.commit c2)
    else
      let deletable := w.fs.cacheEntries.filter (fun p => w.fs.nlinkOf th p.1 = th)
      match evictLoop th (sortByKey evictKeyLe deletable) c2 w.fs with
      | .error e => .error e
      | .ok cf => .ok (({ w with fs := cf.2 }).commit cf.1)

/-- The `for (fileToDelete, fileSize) in filesToDelete.items()` loop of
`CachedFileStore.deleteLocalFile` (`job.py` 1270-1317), threading the
in-memory `cacheInfo`, the job's `_JobState`, the world (whose
`committed` grows at the mid-loop `cacheInfo.write` calls) and the last
iterated `fileSize` (Python leaks the loop variable; it is read after
the loop). -/
def dlfLoop (jid : JobId) (fid : FileId) :
    List (Option PathId × Int) → CacheState → JState → CWorld → Option Int →
    Except CacheOpErr (CacheState × JState × CWorld × Option Int)
  | [], c, js, w, lastSize => .ok (c, js, w, lastSize)
  | (pathOpt, size) :: rest, c, js, w, _ =>
    match pathOpt with
    | none =>
      let inner := (alistLookup js.jobSpecificFiles fid).getD []
      let js' := { js with
        jobSpecificFiles := alistSet js.jobSpecificFiles fid (alistPop inner none),
        filesToFSIDs := alistSet js.filesToFSIDs none
          (((alistLookup js.filesToFSIDs none).getD []).filter (fun x => x ≠ fid)) }
      let c' := { c with jobState := alistSet c.jobState jid js' }
      dlfLoop jid fid rest c' js' (w.commit c') (some size)
    | some path =>
      if size = 0 ∨ size = -1 then
        let owned := (alistLookup js.filesToFSIDs (some path)).getD []
        match (if owned.length = 1 then
                 match alistLookup w.fs.localFiles path with
                 | some _ => some { w.fs with localFiles := alistPop w.fs.localFiles path }
                 | none => if size = -1 then some w.fs else none
               else some w.fs) with
        | none => .error .cacheError
        | some fs' =>
          let inner := (alistLookup js.jobSpecificFiles fid).getD []
          let js' := { js with
            jobSpecificFiles := alistSet js.jobSpecificFiles fid (alistPop inner (some path)),
            filesToFSIDs := alistSet js.filesToFSIDs (some path)
              (owned.filter (fun x => x ≠ fid)) }
          let c' := { c with jobState := alistSet c.jobState jid js' }
          dlfLoop jid fid rest c' js' (({ w with fs := fs' }).commit c') (some size)
      else
        match alistLookup w.fs.localFiles path with
        | none => .error .cacheError
        | some _ =>
          let owned := (alistLookup js.filesToFSIDs (some path)).getD []
          let fs' := if owned.length = 1 then
              { w.fs with localFiles := alistPop w.fs.localFiles path }
            else w.fs
          let inner := (alistLookup js.jobSpecificFiles fid).getD []
          let js' := { js with
            jobSpecificFiles := alistSet js.jobSpecificFiles fid (alistPop inner (some path)),
            filesToFSIDs := alistSet js.filesToFSIDs (some path)
              (owned.filter (fun x => x ≠ fid)),
            jobReqs := js.jobReqs + size }
          let c' := { c with
            sigmaJob := c.sigmaJob + size,
            jobState := alistSet c.jobState jid js' }
          dlfLoop jid fid rest c' js' { w with fs := fs' } (some size)

/-- `CachedFileStore.deleteLocalFile` (`job.py` 1251-1333): under the
state-file lock, assert the ID is among the job's files, run the
deletion loop, then — when the job is not cleaning up and the file is
still cached and the equation is unbalanced and the cached copy's link
count equals the threshold — evict the cached copy, subtracting the
loop's leaked `fileSize`; the context-manager exit writes the state. -/
def deleteLocalFileOp (th : Nat) (jid : JobId) (cleanupInProgress : Bool) (fid : FileId)
    (w : CWorld) : Except CacheOpErr CWorld :=
  match alistLookup w.cs.jobState jid with
  | none => .error .assertionFailed
  | some js =>
    if ¬ (js.jobSpecificFiles.any (fun p => p.1 = fid)) then .error .assertionFailed
    else
      let items := (alistLookup js.jobSpecificFiles fid).getD []
      match dlfLoop jid fid items w.cs js w none with
      | .error e => .error e
      | .ok r =>
        let c' := r.1
        let w' := r.2.2.1
        let lastSize := r.2.2.2
        if ¬ cleanupInProgress ∧ w'.fs.cacheHas fid then
          let jobsUsingFile := w'.fs.nlinkOf th fid
          if ¬ c'.isBalanced ∧ jobsUsingFile = th then
            match lastSize, alistLookup w'.fs.cacheEntries fid with
            | some sz, some _ =>
              let fs'' := { w'.fs with cacheEntries := alistPop w'.fs.cacheEntries fid }
              .ok (({ w' with fs := fs'' }).commit { c' with cached := c'.cached - sz })
            | _, _ => .error .runtimeFailure
          else .ok (w'.commit c')
        else .ok (w'.commit c')

/-- `CachedFileStore.removeSingleCachedFile` (`job.py` 1682-1703):
assert the cached copy's link count equals the threshold, remove it,
subtract its size from `cached` when the threshold is not 2 (an
unbalanced result is only a logged warning), write. -/
def removeSingleCachedFile (th : Nat) (fid : FileId) (w : CWorld) :
    Except CacheOpErr CWorld :=
  match alistLookup w.fs.cacheEntries fid with
  | none => .error .runtimeFailure
  | some ce =>
    if w.fs.nlinkOf th fid ≠ th then .error .assertionFailed
    else
      let fs' := { w.fs with cacheEntries := alistPop w.fs.cacheEntries fid }
      let c' := if th ≠ 2 then { w.cs with cached := w.cs.cached - ce.size } else w.cs
      .ok (({ w with fs := fs' }).commit c')

/-- `CachedFileStore.deleteGlobalFile` (`job.py` 1335-1362): read the
job's state (the read-only `with` still rewrites the state file), run
`deleteLocalFile` when the ID is among the job's files, remove a
remaining cached copy via `removeSingleCachedFile`, and stage the ID in
`filesToDelete`. -/
def deleteGlobalFileC (th : Nat) (jid : JobId) (cleanupInProgress : Bool) (fid : FileId)
    (w : CWorld) : Except CacheOpErr CWorld :=
  match alistLookup w.cs.jobState jid with
  | none => .error .runtimeFailure
  | some js =>
    let w1 := w.commit w.cs
    match (if js.jobSpecificFiles.any (fun p => p.1 = fid) then
             deleteLocalFileOp th jid cleanupInProgress fid w1
           else .ok w1) with
    | .error e => .error e
    | .ok w2 =>
      match (if w2.fs.cacheHas fid then removeSingleCachedFile th fid w2 else .ok w2) with
      | .error e => .error e
      | .ok w3 => .ok (w3.addFtd jid fid)

/-- The `for x in jobState.jobSpecificFiles.keys()` loop of
`CachedFileStore.returnJobReqs`. -/
def rjrLoop (th : Nat) (jid : JobId) : List FileId → CWorld → Except CacheOpErr CWorld
  | [], w => .ok w
  | f :: rest, w =>
    match deleteLocalFileOp th jid true f w with
    | .error e => .error e
    | .ok w' => rjrLoop th jid rest w'

/-- `CachedFileStore.returnJobReqs` (`job.py` 1715-1731): with
`cleanupInProgress` set, `deleteLocalFile` every file the job tracked,
then subtract the job's requirement from `sigmaJob` and drop its
`jobState` entry.  The `assert cacheInfo.isBalanced()` at the end is
commented out in the source. -/
def returnJobReqsOp (th : Nat) (jid : JobId) (jobReqs : Int) (w : CWorld) :
    Except CacheOpErr CWorld :=
  match alistLookup w.cs.jobState jid with
  | none => .error .runtimeFailure
  | some js =>
    match rjrLoop th jid (js.jobSpecificFiles.map Prod.fst) w with
    | .error e => .error e
    | .ok w' =>
      match alistLookup w'.cs.jobState jid with
      | none => .error .runtimeFailure
      | some _ =>
        .ok (w'.commit { w'.cs with
          sigmaJob := w'.cs.sigmaJob - jobReqs,
          jobState := alistPop w'.cs.jobState jid })

/-- The cached `FileStore` operations the claims quantify over. -/
inductive CachedOp
  | cleanCache (jid : JobId) (reqs : Int)
  | writeGlobal (jid : JobId) (path : PathId) (isLocal : Bool)
  | readGlobal (jid : JobId) (fid : FileId) (userPath : Option (PathId × Bool))
      (cache mutable : Bool)
  | readStream (jid : JobId) (fid : FileId)
  | deleteLocal (jid : JobId) (cleanup : Bool) (fid : FileId)
  | deleteGlobal (jid : JobId) (cleanup : Bool) (fid : FileId)
  | returnReqs (jid : JobId) (reqs : Int)
  | returnSize (jid : JobId) (fid : FileId) (src : PathId) (alreadyCached : Bool)
deriving DecidableEq, Repr

/-- Apply one cached-store operation. -/
def applyCachedOp (th : Nat) (w : CWorld) : CachedOp → Except CacheOpErr CWorld
  | .cleanCache jid reqs => cleanCacheOp th jid reqs w
  | .writeGlobal jid path isLocal => (writeGlobalFileC th jid path isLocal w).map Prod.snd
  | .readGlobal jid fid up c m => (readGlobalFileC th jid fid up c m w).map Prod.snd
  | .readStream jid fid => (readGlobalFileStreamC jid fid w).map (fun _ => w)
  | .deleteLocal jid cl fid => deleteLocalFileOp th jid cl fid w
  | .deleteGlobal jid cl fid => deleteGlobalFileC th jid cl fid w
  | .returnReqs jid reqs => returnJobReqsOp th jid reqs w
  | .returnSize jid fid src ac => returnFileSize th jid fid src ac w

/-- A sequence of cached-store operations completing successfully. -/
def runCachedOps (th : Nat) : CWorld → List CachedOp → Except CacheOpErr CWorld
  | w, [] => .ok w
  | w, op :: ops =>
    match applyCachedOp th w op with
    | .error e => .error e
    | .ok w' => runCachedOps th w' ops

/-- The fresh cache state written by `_createCacheLockFile`
(`job.py` 1446-1454): `{nlink, attemptNumber, total = freeSpace,
cached = 0, sigmaJob = 0, jobState = {}}`. -/
def initialCacheState (th attempt : Nat) (freeSpace : Int) : CacheState :=
  ⟨th, attempt, freeSpace, 0, 0, []⟩

/-- A node with a different-device job store (`nlinkThreshold = 1`),
100 bytes of cache budget and one 30-byte user file at path 0 in the
local temp dir of job 1. -/
def cacheWorld0 : CWorld :=
  { cs := initialCacheState 1 1 100,
    fs := { cacheEntries := [], localFiles := [(0, ⟨30, none⟩)], clock := 0, nextPath := 100 },
    storeFiles := [], nextFileId := 0, jobFilesToDelete := [],
    committed := [initialCacheState 1 1 100] }

/-- Job 1 reserves 40 and writes its 30-byte file (file ID 0, cached);
job 2 reserves 60 and reads that file immutably from the cache (a hard
link, returning 30 to the pool); job 3 reserves the freed 30; then job
1 deletes its local copy. -/
def imbalanceTrace : List CachedOp :=
  [ .cleanCache 1 40,
    .writeGlobal 1 0 true,
    .cleanCache 2 60,
    .readGlobal 2 0 none true false,
    .cleanCache 3 30,
    .deleteLocal 1 false 0 ]

/-- Side condition on the filesystem model: every file size recorded
in the local-file map, the cache directory and the job store is
nonnegative, as `os.stat().st_size` always is. -/
def sizesOk (w : CWorld) : Bool :=
  w.fs.localFiles.all (fun p => decide (0 ≤ p.2.size)) &&
  w.fs.cacheEntries.all (fun p => decide (0 ≤ p.2.size)) &&
  w.storeFiles.all (fun p => decide (0 ≤ p.2))

/-! ## Theorems

First the semantic lemmas about the generic DFS closure, then the
claims. -/

section DfsLemmas

variable {n : Nat} {nb : Fin n → List (Fin n)}

theorem mem_dfsClosureW_of_mem {x : Fin n} :
    ∀ visited ws, x ∈ visited → x ∈ dfsClosureW nb visited ws := by
  intro visited ws
  induction visited, ws using dfsClosureW.induct nb with
  | case1 visited => simp [dfsClosureW]
  | case2 visited v ws hv ih =>
    intro hx
    rw [dfsClosureW, if_pos hv]
    exact ih hx
  | case3 visited v ws hv ih =>
    intro hx
    rw [dfsClosureW, if_neg hv]
    exact ih (List.mem_cons_of_mem _ hx)

theorem mem_dfsClosureW_of_ws {x : Fin n} :
    ∀ visited ws, x ∈ ws → x ∈ dfsClosureW nb visited ws := by
  intro visited ws
  induction visited, ws using dfsClosureW.induct nb with
  | case1 visited => simp
  | case2 visited v ws hv ih =>
    intro hx
    rw [dfsClosureW, if_pos hv]
    rcases List.mem_cons.mp hx with h | h
    · exact mem_dfsClosureW_of_mem _ _ (h ▸ hv)
    · exact ih h
  | case3 visited v ws hv ih =>
    intro hx
    rw [dfsClosureW, if_neg hv]
    rcases List.mem_cons.mp hx with h | h
    · exact mem_dfsClosureW_of_mem _ _ (h ▸ List.mem_cons_self v visited)
    · exact ih (List.mem_append_right _ h)

theorem dfsClosureW_sound {x : Fin n} :
    ∀ visited ws, x ∈ dfsClosureW nb visited ws →
      x ∈ visited ∨ ∃ w ∈ ws, Relation.ReflTransGen (NbStep nb) w x := by
  intro visited ws
  induction visited, ws using dfsClosureW.induct nb with
  | case1 visited => intro hx; rw [dfsClosureW] at hx; exact Or.inl hx
  | case2 visited v ws hv ih =>
    intro hx
    rw [dfsClosureW, if_pos hv] at hx
    rcases ih hx with h | ⟨w, hw, hpath⟩
    · exact Or.inl h
    · exact Or.inr ⟨w, List.mem_cons_of_mem _ hw, hpath⟩
  | case3 visited v ws hv ih =>
    intro hx
    rw [dfsClosureW, if_neg hv] at hx
    rcases ih hx with h | ⟨w, hw, hpath⟩
    · rcases List.mem_cons.mp h with h | h
      · exact Or.inr ⟨v, List.mem_cons_self v ws, h ▸ Relation.ReflTransGen.refl⟩
      · exact Or.inl h
    · rcases List.mem_append.mp hw with h | h
      · exact Or.inr ⟨v, List.mem_cons_self v ws,
          Relation.ReflTransGen.head (a := v) h hpath⟩
      · exact Or.inr ⟨w, List.mem_cons_of_mem _ h, hpath⟩

theorem dfsClosureW_closed :
    ∀ visited ws, (∀ a ∈ visited, ∀ b ∈ nb a, b ∈ visited ∨ b ∈ ws) →
      ∀ a ∈ dfsClosureW nb visited ws, ∀ b ∈ nb a, b ∈ dfsClosureW nb visited ws := by
  intro visited ws
  induction visited, ws using dfsClosureW.induct nb with
  | case1 visited =>
    intro hinv a ha b hb
    rw [dfsClosureW] at ha ⊢
    rcases hinv a ha b hb with h | h
    · exact h
    · exact absurd h (List.not_mem_nil b)
  | case2 visited v ws hv ih =>
    intro hinv a ha b hb
    rw [dfsClosureW, if_pos hv] at ha ⊢
    refine ih ?_ a ha b hb
    intro a' ha' b' hb'
    rcases hinv a' ha' b' hb' with h | h
    · exact Or.inl h
    · rcases List.mem_cons.mp h with h | h
      · exact Or.inl (h ▸ hv)
      · exact Or.inr h
  | case3 visited v ws hv ih =>
    intro hinv a ha b hb
    rw [dfsClosureW, if_neg hv] at ha ⊢
    refine ih ?_ a ha b hb
    intro a' ha' b' hb'
    rcases List.mem_cons.mp ha' with h | h
    · exact Or.inr (List.mem_append_left _ (h ▸ hb'))
    · rcases hinv a' h b' hb' with h' | h'
      · exact Or.inl (List.mem_cons_of_mem _ h')
      · rcases List.mem_cons.mp h' with h' | h'
        · exact Or.inl (h' ▸ List.mem_cons_self v visited)
        · exact Or.inr (List.mem_append_right _ h')

theorem dfsClosureW_nodup :
    ∀ visited ws, visited.Nodup → (dfsClosureW nb visited ws).Nodup := by
  intro visited ws
  induction visited, ws using dfsClosureW.induct nb with
  | case1 visited => intro h; rw [dfsClosureW]; exact h
  | case2 visited v ws hv ih => intro h; rw [dfsClosureW, if_pos hv]; exact ih h
  | case3 visited v ws hv ih =>
    intro h
    rw [dfsClosureW, if_neg hv]
    exact ih (List.nodup_cons.mpr ⟨hv, h⟩)

theorem mem_dfsClosureW_of_reach {w x : Fin n} {ws : List (Fin n)}
    (hw : w ∈ ws) (hpath : Relation.ReflTransGen (NbStep nb) w x) :
    x ∈ dfsClosureW nb [] ws := by
  induction hpath with
  | refl => exact mem_dfsClosureW_of_ws _ _ hw
  | tail hab hbc ih =>
    exact dfsClosureW_closed [] ws (by intro a ha; exact absurd ha (List.not_mem_nil a))
      _ ih _ hbc

theorem mem_dfsClosureW_iff {x : Fin n} {ws : List (Fin n)} :
    x ∈ dfsClosureW nb [] ws ↔ ∃ w ∈ ws, Relation.ReflTransGen (NbStep nb) w x := by
  constructor
  · intro hx
    rcases dfsClosureW_sound [] ws hx with h | h
    · exact absurd h (List.not_mem_nil x)
    · exact h
  · rintro ⟨w, hw, hpath⟩
    exact mem_dfsClosureW_of_reach hw hpath

theorem dfsClosure_eq_W {U : Nat} (hU : ∀ v, (nb v).length ≤ U) :
    ∀ fuel visited ws,
      ws.length + (Finset.univ \ visited.toFinset).card * (1 + U) ≤ fuel →
      dfsClosure nb fuel visited ws = dfsClosureW nb visited ws := by
  intro fuel
  induction fuel with
  | zero =>
    intro visited ws hs
    have : ws.length = 0 := by omega
    rw [List.length_eq_zero.mp this, dfsClosure, dfsClosureW]
  | succ f ih =>
    intro visited ws hs
    match ws with
    | [] => rw [dfsClosure, dfsClosureW]
    | v :: ws =>
      by_cases hv : v ∈ visited
      · rw [dfsClosure, dfsClosureW, if_pos hv, if_pos hv]
        refine ih visited ws ?_
        simp only [List.length_cons] at hs
        omega
      · rw [dfsClosure, dfsClosureW, if_neg hv, if_neg hv]
        refine ih (v :: visited) (nb v ++ ws) ?_
        have hcard : (Finset.univ \ (v :: visited).toFinset).card + 1 =
            (Finset.univ \ visited.toFinset).card := by
          have hsub : Finset.univ \ (v :: visited).toFinset =
              (Finset.univ \ visited.toFinset).erase v := by
            ext x
            simp only [Finset.mem_sdiff, Finset.mem_univ, true_and, Finset.mem_erase,
              List.toFinset_cons, Finset.mem_insert, List.mem_toFinset]
            tauto
          rw [hsub]
          refine Finset.card_erase_add_one ?_
          simp only [Finset.mem_sdiff, Finset.mem_univ, true_and, List.mem_toFinset]
          exact hv
        have hlen : (nb v ++ ws).length = (nb v).length + ws.length := by
          simp [List.length_append]
        have hmul : (Finset.univ \ visited.toFinset).card * (1 + U) =
            (Finset.univ \ (v :: visited).toFinset).card * (1 + U) + (1 + U) := by
          rw [← hcard]; ring
        have := hU v
        simp only [List.length_cons] at hs
        omega

theorem dfsClosure_nbFuel_eq {ws : List (Fin n)} :
    dfsClosure nb (nbFuel nb ws) [] ws = dfsClosureW nb [] ws := by
  refine dfsClosure_eq_W (U := ((List.finRange n).map (fun v => (nb v).length)).sum)
    ?_ _ [] ws ?_
  · intro v
    exact List.single_le_sum (fun _ _ => Nat.zero_le _) _
      (List.mem_map_of_mem _ (List.mem_finRange v))
  · simp only [nbFuel, List.toFinset_nil, Finset.sdiff_empty, Finset.card_univ,
      Fintype.card_fin]
    omega

end DfsLemmas

section GraphLemmas

variable {n : Nat}

theorem mem_getRootJobs {g : JGraph n} {s j : Fin n} :
    j ∈ g.getRootJobs s ↔ JGraph.UndirReach g s j ∧ g.preds j = [] := by
  unfold JGraph.getRootJobs
  rw [List.mem_filter, dfsClosure_nbFuel_eq, mem_dfsClosureW_iff]
  simp only [List.mem_singleton, exists_eq_left, decide_eq_true_eq]
  exact Iff.rfl

theorem getRootJobs_nodup {g : JGraph n} {s : Fin n} : (g.getRootJobs s).Nodup := by
  unfold JGraph.getRootJobs
  rw [dfsClosure_nbFuel_eq]
  exact (dfsClosureW_nodup [] [s] List.nodup_nil).filter _

theorem mem_descendants {g : JGraph n} {starts : List (Fin n)} {x : Fin n} :
    x ∈ g.descendants starts ↔
      ∃ w ∈ starts, Relation.ReflTransGen (JGraph.DirStep g) w x := by
  unfold JGraph.descendants
  rw [dfsClosure_nbFuel_eq, mem_dfsClosureW_iff]
  exact Iff.rfl

/-- A nodup list has length one exactly when it has a unique member. -/
theorem nodup_length_one_iff {α : Type} {l : List α} (hn : l.Nodup) :
    l.length = 1 ↔ ∃! x, x ∈ l := by
  constructor
  · intro h
    rcases List.length_eq_one.mp h with ⟨a, rfl⟩
    exact ⟨a, List.mem_singleton_self a, fun y hy => List.mem_singleton.mp hy⟩
  · rintro ⟨x, hx, huniq⟩
    match l, hx with
    | a :: t, hx =>
      have hax : a = x := huniq a (List.mem_cons_self a t)
      have ht : t = [] := by
        refine List.eq_nil_iff_forall_not_mem.mpr fun b hb => ?_
        have hbx : b = x := huniq b (List.mem_cons_of_mem _ hb)
        exact (List.nodup_cons.mp hn).1 ((hax.trans hbx.symm) ▸ hb)
      rw [ht]
      rfl

end GraphLemmas

/-- Appending to `_rvs[index]` appends to exactly that index's list. -/
theorem rvsGet_rvsAppend (rvs : List (Option Nat × List Nat)) (index : Option Nat)
    (fid : Nat) : rvsGet (rvsAppend rvs index fid) index = rvsGet rvs index ++ [fid] := by
  induction rvs with
  | nil => simp [rvsAppend, rvsGet]
  | cons p rest ih =>
    by_cases h : p.1 = index
    · simp [rvsAppend, rvsGet, h]
    · simp [rvsAppend, rvsGet, h, ih]

/-- C5: after `_serialiseExistingJob` on a wrapper whose stack ends with
the four batches `[oldFollowOns, oldChildren, newFollowOns,
newChildren]`, those batches are replaced by the merged follow-on batch
(new ++ old) followed by the merged children batch (new ++ old), empty
merged batches omitted, and the remainder of the stack unchanged. -/
theorem claim5_stack_merge {α : Type} [DecidableEq α]
    (rest : List (List α)) (oF oC nF nC : List α) :
    mergeStack (rest ++ [oF, oC, nF, nC]) =
      some (rest ++ (if nF ++ oF = [] then [] else [nF ++ oF])
                 ++ (if nC ++ oC = [] then [] else [nC ++ oC])) := by
  have h4 : rest ++ [oF, oC, nF, nC] = (((rest ++ [oF]) ++ [oC]) ++ [nF]) ++ [nC] := by
    simp
  have hlen : (rest ++ [oF, oC, nF, nC]).length = rest.length + 4 := by
    simp
  rw [mergeStack, if_neg (by omega)]
  simp only [h4, List.dropLast_concat, List.getLastD_concat]
  have e1 : (if (nF ++ oF).length > 0 then [nF ++ oF] else []) =
      (if nF ++ oF = [] then ([] : List (List α)) else [nF ++ oF]) := by
    rcases eq_or_ne (nF ++ oF) [] with hf | hf
    · rw [if_pos hf, hf]; simp
    · rw [if_neg hf, if_pos (List.length_pos.mpr hf)]
  have e2 : (if (nC ++ oC).length > 0 then [nC ++ oC] else []) =
      (if nC ++ oC = [] then ([] : List (List α)) else [nC ++ oC]) := by
    rcases eq_or_ne (nC ++ oC) [] with hc | hc
    · rw [if_pos hc, hc]; simp
    · rw [if_neg hc, if_pos (List.length_pos.mpr hc)]
  rw [e1, e2, List.append_assoc]

/-- C4: in the commit protocol `_updateJobWhenDone`, the wrapper update
happens only after every writer thread has received a poison pill and
been joined and the input block function has returned; it is skipped
entirely when the terminate event is set; and the staged deletions of
wrappers and files execute only after that wrapper update. -/
theorem claim4_commit_protocol_order :
    ∀ (numWorkers : Nat) (terminateSet : Bool) (jobsToDelete filesToDelete : List Nat),
      (terminateSet = true →
        (asyncUpdateTrace numWorkers terminateSet jobsToDelete filesToDelete).1 = false ∧
        CommitEvent.updateWrapper ∉
          (asyncUpdateTrace numWorkers terminateSet jobsToDelete filesToDelete).2) ∧
      (terminateSet = false →
        ∃ pre post,
          (asyncUpdateTrace numWorkers terminateSet jobsToDelete filesToDelete).2 =
            pre ++ CommitEvent.updateWrapper :: post ∧
          CommitEvent.updateWrapper ∉ pre ∧
          pre.count CommitEvent.poisonPill = numWorkers ∧
          (∀ i < numWorkers, CommitEvent.joinWorker i ∈ pre) ∧
          CommitEvent.blockFnReturn ∈ pre ∧
          (∀ j, CommitEvent.deleteWrapper j ∈ post ↔ j ∈ jobsToDelete) ∧
          (∀ f, CommitEvent.deleteStoreFile f ∈ post ↔ f ∈ filesToDelete)) := by
  intro numWorkers terminateSet jobsToDelete filesToDelete
  constructor
  · rintro rfl
    constructor
    · simp [asyncUpdateTrace]
    · simp [asyncUpdateTrace, List.mem_append, List.mem_replicate, List.mem_map]
  · rintro rfl
    refine ⟨List.replicate numWorkers CommitEvent.poisonPill
        ++ (List.range numWorkers).map CommitEvent.joinWorker
        ++ [CommitEvent.blockFnReturn, CommitEvent.stampFilesToDelete],
      jobsToDelete.map CommitEvent.deleteWrapper
        ++ filesToDelete.map CommitEvent.deleteStoreFile
        ++ (if filesToDelete.length > 0 then
              [CommitEvent.clearFilesToDelete, CommitEvent.updateWrapper] else []),
      ?_, ?_, ?_, ?_, ?_, ?_, ?_⟩
    · simp [asyncUpdateTrace, List.append_assoc]
    · simp [List.mem_append, List.mem_replicate, List.mem_map]
    · rw [List.count_append, List.count_append]
      have h1 : List.count CommitEvent.poisonPill
          (List.replicate numWorkers CommitEvent.poisonPill) = numWorkers := by
        simp
      have h2 : List.count CommitEvent.poisonPill
          ((List.range numWorkers).map CommitEvent.joinWorker) = 0 :=
        List.count_eq_zero.mpr (by simp)
      have h3 : List.count CommitEvent.poisonPill
          [CommitEvent.blockFnReturn, CommitEvent.stampFilesToDelete] = 0 :=
        List.count_eq_zero.mpr (by simp)
      omega
    · intro i hi
      refine List.mem_append_left _ (List.mem_append_right _ ?_)
      exact List.mem_map_of_mem _ (List.mem_range.mpr hi)
    · simp [List.mem_append]
    · intro j
      constructor
      · intro hj
        rcases List.mem_append.mp hj with h | h
        · rcases List.mem_append.mp h with h | h
          · rcases List.mem_map.mp h with ⟨a, ha, hEq⟩
            exact (CommitEvent.deleteWrapper.injEq _ _ ▸ hEq : a = j) ▸ ha
          · rcases List.mem_map.mp h with ⟨a, _, hEq⟩
            exact absurd hEq (by simp)
        · split at h <;> simp_all
      · intro hj
        exact List.mem_append_left _ (List.mem_append_left _ (List.mem_map_of_mem _ hj))
    · intro f
      constructor
      · intro hf
        rcases List.mem_append.mp hf with h | h
        · rcases List.mem_append.mp h with h | h
          · rcases List.mem_map.mp h with ⟨a, _, hEq⟩
            exact absurd hEq (by simp)
          · rcases List.mem_map.mp h with ⟨a, ha, hEq⟩
            exact (CommitEvent.deleteStoreFile.injEq _ _ ▸ hEq : a = f) ▸ ha
        · split at h <;> simp_all
      · intro hf
        exact List.mem_append_left _
          (List.mem_append_right _ (List.mem_map_of_mem _ hf))

/-- C6: pickling a Promise bound to `(job, index)` allocates exactly
one new empty placeholder file in the job store and records that file's
ID in the owning job's `_rvs[index]`; a Promise created by `rv()` but
never pickled causes no allocation (constructing it leaves the job and
the store untouched). -/
theorem claim6_promise_lazy_allocation :
    (∀ (j : PJob) (s : PromiseStore) (index : Option Nat),
        j.promiseJobStore = true → (∀ f ∈ s.files, f < s.nextId) →
        ∃ fid j' s', promiseReduce (rvOp j s index).1 j s = .ok (fid, j', s') ∧
          s'.files = s.files ++ [fid] ∧ fid ∉ s.files ∧
          rvsGet j'.rvs index = rvsGet j.rvs index ++ [fid]) ∧
    (∀ (j : PJob) (s : PromiseStore) (index : Option Nat), (rvOp j s index).2 = (j, s)) := by
  constructor
  · intro j s index hstore hwf
    refine ⟨s.nextId, { j with rvs := rvsAppend j.rvs index s.nextId },
      ⟨s.nextId + 1, s.files ++ [s.nextId]⟩, ?_, rfl, ?_, ?_⟩
    · simp [promiseReduce, rvOp, allocatePromiseFile, hstore,
        PromiseStore.getEmptyFileStoreID]
    · intro hmem
      exact absurd (hwf _ hmem) (lt_irrefl _)
    · exact rvsGet_rvsAppend j.rvs index s.nextId
  · intro j s index
    rfl

/-- C2 (evaluation at the failing input): the non-root checkpoint job
`C = 1` of `gCheckpointChild` has a child yet
`checkNewCheckpointsAreLeafVertices` — and the whole validation —
accepts the graph, because the source tests the conjunction
`children ≠ [] and followOns ≠ [] and services ≠ []` instead of the
disjunction its docstring describes. -/
theorem claim2_checkpoint_conjunction_eval :
    JGraph.checkNewCheckpointsAreLeafVertices gCheckpointChild 0 = .ok () ∧
    JGraph.checkJobGraphForDeadlocks gCheckpointChild 0 = .ok () ∧
    gCheckpointChild.checkpoint 1 = true ∧
    (1 : Fin 3) ∉ gCheckpointChild.getRootJobs 0 ∧
    gCheckpointChild.children 1 ≠ [] ∧
    gCheckpointChild.followOns 1 = [] ∧
    gCheckpointChild.servicesCount 1 = 0 := by decide

/-- C9 (evaluation at the failing input): attaching service 2 under
parent service 1 via `addService(2, parentService=1)` leaves
`_hasParent` unset (the source's `_addChild` assigns the unread
attribute `_parent` instead), so re-attaching service 2 with a plain
`addService(2)` succeeds where the claim — and `_addChild`'s docstring —
require a `JobException`. -/
theorem claim9_service_reattach_eval :
    (do
      let w1 ← addServiceOp svcWorld0 1 none
      let w2 ← addServiceOp w1 2 (some 1)
      pure ((svcGet w2 2).hasParentFlag, (svcGet w2 2).parentFlag,
            decide (2 ∈ (svcGet w2 1).childServices),
            (addServiceOp w2 2 none).isOk))
      = .ok (false, true, true, true) := by decide

/-- C8: `checkJobGraphConnected` raises `JobGraphDeadlockException`
exactly when the set of predecessor-free jobs of the connected
component does not contain exactly one job; in particular the two-job
cycle `A.addChild(B); B.addChild(A)` has zero roots and is rejected. -/
theorem claim8_connected_unique_root :
    (∀ (n : Nat) (g : JGraph n) (s : Fin n),
        JGraph.checkJobGraphConnected g s = .error .deadlock ↔
          ¬ ∃! j, JGraph.UndirReach g s j ∧ g.preds j = []) ∧
    ((∀ j : Fin 2, gTwoCycle.preds j ≠ []) ∧
      JGraph.checkJobGraphConnected gTwoCycle 0 = .error .deadlock) := by
  constructor
  · intro n g s
    have hmem : ∀ j, j ∈ g.getRootJobs s ↔
        (JGraph.UndirReach g s j ∧ g.preds j = []) := fun j => mem_getRootJobs
    have hlen : (g.getRootJobs s).length = 1 ↔
        ∃! j, JGraph.UndirReach g s j ∧ g.preds j = [] := by
      rw [nodup_length_one_iff getRootJobs_nodup]
      exact existsUnique_congr hmem
    unfold JGraph.checkJobGraphConnected
    by_cases h : (g.getRootJobs s).length ≠ 1
    · rw [if_pos h]
      constructor
      · intro _
        exact fun habs => h (hlen.mpr habs)
      · intro _
        rfl
    · rw [if_neg h]
      push_neg at h
      constructor
      · intro habs
        exact absurd habs (by simp)
      · intro habs
        exact absurd (hlen.mp h) habs
  · exact ⟨by decide, by decide⟩

section TopoLemmas

variable {n : Nat}

theorem topoSorted_append {g : JGraph n} {o : List (Fin n)} {v : Fin n}
    (h : JGraph.TopoSorted g o) (hp : ∀ p ∈ g.preds v, p ∈ o) (hv : v ∉ o) :
    JGraph.TopoSorted g (o ++ [v]) := by
  obtain ⟨hnodup, hclosed, hpair, hself⟩ := h
  refine ⟨?_, ?_, ?_, ?_⟩
  · rw [List.nodup_append]
    exact ⟨hnodup, List.nodup_singleton v, by
      intro x hx hx1
      rw [List.mem_singleton] at hx1
      exact hv (hx1 ▸ hx)⟩
  · intro x hx p hp'
    rcases List.mem_append.mp hx with hx | hx
    · exact List.mem_append_left _ (hclosed x hx p hp')
    · rw [List.mem_singleton] at hx
      exact List.mem_append_left _ (hp p (hx ▸ hp'))
  · rw [List.pairwise_append]
    refine ⟨hpair, List.pairwise_singleton _ _, ?_⟩
    intro a ha b hb
    rw [List.mem_singleton] at hb
    subst hb
    intro hmem
    exact hv (hclosed a ha b hmem)
  · intro x hx
    rcases List.mem_append.mp hx with hx | hx
    · exact hself x hx
    · rw [List.mem_singleton] at hx
      subst hx
      intro hmem
      exact hv (hp x hmem)

theorem topo_preserves_inv (g : JGraph n) :
    ∀ fuel : Nat,
      (∀ o v, JGraph.TopoSorted g o → JGraph.TopoSorted g (topoVisit g fuel o v)) ∧
      (∀ o l, JGraph.TopoSorted g o → JGraph.TopoSorted g (topoSuccs g fuel o l)) := by
  intro fuel
  induction fuel with
  | zero =>
    constructor
    · intro o v h
      rw [topoVisit]
      exact h
    · intro o l h
      rw [topoSuccs]
      exact h
  | succ f ih =>
    constructor
    · intro o v h
      rw [topoVisit]
      by_cases h1 : (g.preds v).any (fun p => decide (p ∉ o)) = true
      · rw [if_pos h1]
        exact h
      · rw [if_neg h1]
        by_cases h2 : v ∈ o
        · rw [if_pos h2]
          exact h
        · rw [if_neg h2]
          have hp : ∀ p ∈ g.preds v, p ∈ o := by
            intro p hp
            by_contra hpo
            exact h1 (List.any_eq_true.mpr ⟨p, hp, decide_eq_true hpo⟩)
          exact ih.2 _ _ (topoSorted_append h hp h2)
    · intro o l h
      match l with
      | [] =>
        rw [topoSuccs]
        exact h
      | u :: us =>
        rw [topoSuccs]
        exact ih.2 _ _ (ih.1 _ _ h)

theorem topoSorted_index {g : JGraph n} {o : List (Fin n)} (h : JGraph.TopoSorted g o) :
    ∀ (j : Nat) (hj : j < o.length), ∀ p ∈ g.preds (o.get ⟨j, hj⟩),
      ∃ i, ∃ hi : i < o.length, i < j ∧ o.get ⟨i, hi⟩ = p := by
  intro j hj p hp
  have hpo : p ∈ o := h.2.1 _ (o.get_mem _ _) p hp
  rcases List.mem_iff_get.mp hpo with ⟨⟨i, hi⟩, hget⟩
  refine ⟨i, hi, ?_, hget⟩
  rcases lt_trichotomy i j with hij | hij | hij
  · exact hij
  · exfalso
    rw [← hget] at hp
    subst hij
    exact h.2.2.2 _ (o.get_mem _ _) hp
  · exfalso
    have hR := List.pairwise_iff_get.mp h.2.2.1 ⟨j, hj⟩ ⟨i, hi⟩ hij
    rw [hget] at hR
    exact hR hp

end TopoLemmas

/-- C7 (amended): for every job graph, `getTopologicalOrderingOfJobs`
returns a sequence of distinct jobs, closed under direct predecessors,
in which every job's index exceeds that of all of its direct
predecessors.  (The sequence need not contain every job of the
connected component — see the counterexample.) -/
theorem claim7_amended :
    ∀ (n : Nat) (g : JGraph n) (s : Fin n),
      (g.getTopologicalOrderingOfJobs s).Nodup ∧
      (∀ v ∈ g.getTopologicalOrderingOfJobs s, ∀ p ∈ g.preds v,
        p ∈ g.getTopologicalOrderingOfJobs s) ∧
      (∀ (j : Nat) (hj : j < (g.getTopologicalOrderingOfJobs s).length),
        ∀ p ∈ g.preds ((g.getTopologicalOrderingOfJobs s).get ⟨j, hj⟩),
        ∃ i, ∃ hi : i < (g.getTopologicalOrderingOfJobs s).length,
          i < j ∧ (g.getTopologicalOrderingOfJobs s).get ⟨i, hi⟩ = p) := by
  intro n g s
  have hinv : JGraph.TopoSorted g (g.getTopologicalOrderingOfJobs s) := by
    unfold JGraph.getTopologicalOrderingOfJobs
    refine (topo_preserves_inv g _).1 [] s ?_
    exact ⟨List.nodup_nil, by simp, List.Pairwise.nil, by simp⟩
  exact ⟨hinv.1, hinv.2.1, topoSorted_index hinv⟩

section AcyclicLemmas

variable {n : Nat}

theorem mem_impliedEdges {g : JGraph n} {nodes : List (Fin n)} {d b : Fin n} :
    b ∈ JGraph.impliedEdges g nodes d ↔
      ∃ j ∈ nodes, g.followOns j ≠ [] ∧ d ∈ g.descendants (g.children j) ∧
        b ∈ g.followOns j := by
  have haux : ∀ (l : List (Fin n)) (acc : List (Fin n)),
      b ∈ l.foldl (fun acc j =>
        if g.followOns j ≠ [] ∧ d ∈ g.descendants (g.children j) then acc ++ g.followOns j
        else acc) acc ↔
      b ∈ acc ∨ ∃ j ∈ l, g.followOns j ≠ [] ∧ d ∈ g.descendants (g.children j) ∧
        b ∈ g.followOns j := by
    intro l
    induction l with
    | nil => simp
    | cons j rest ih =>
      intro acc
      rw [List.foldl_cons, ih]
      by_cases hc : g.followOns j ≠ [] ∧ d ∈ g.descendants (g.children j)
      · rw [if_pos hc, List.mem_append]
        constructor
        · rintro ((h | h) | h)
          · exact Or.inl h
          · exact Or.inr ⟨j, List.mem_cons_self j rest, hc.1, hc.2, h⟩
          · rcases h with ⟨j', hj', hp⟩
            exact Or.inr ⟨j', List.mem_cons_of_mem _ hj', hp⟩
        · rintro (h | ⟨j', hj', h1, h2, h3⟩)
          · exact Or.inl (Or.inl h)
          · rcases List.mem_cons.mp hj' with rfl | hj'
            · exact Or.inl (Or.inr h3)
            · exact Or.inr ⟨j', hj', h1, h2, h3⟩
      · rw [if_neg hc]
        constructor
        · rintro (h | ⟨j', hj', hp⟩)
          · exact Or.inl h
          · exact Or.inr ⟨j', List.mem_cons_of_mem _ hj', hp⟩
        · rintro (h | ⟨j', hj', h1, h2, h3⟩)
          · exact Or.inl h
          · rcases List.mem_cons.mp hj' with rfl | hj'
            · exact absurd ⟨h1, h2⟩ hc
            · exact Or.inr ⟨j', hj', h1, h2, h3⟩
  rw [JGraph.impliedEdges, haux]
  simp

/-- Every implied-edge list entry is an implied edge of the
specification's augmented graph. -/
theorem impliedEdges_augEdge {g : JGraph n} {nodes : List (Fin n)} {u v : Fin n}
    (h : v ∈ JGraph.impliedEdges g nodes u) : JGraph.AugEdge g u v := by
  rcases mem_impliedEdges.mp h with ⟨j, _, _, hdesc, hfoll⟩
  rcases mem_descendants.mp hdesc with ⟨c, hc, hpath⟩
  exact Or.inr (Or.inr ⟨j, hfoll, c, hc, hpath⟩)

theorem execEdge_augEdge {g : JGraph n} {nodes : List (Fin n)} {u v : Fin n}
    (h : v ∈ g.children u ++ g.followOns u ++ JGraph.impliedEdges g nodes u) :
    JGraph.AugEdge g u v := by
  rcases List.mem_append.mp h with h | h
  · rcases List.mem_append.mp h with h | h
    · exact Or.inl h
    · exact Or.inr (Or.inl h)
  · exact impliedEdges_augEdge h

/-- Walking a chain from any member to its last element. -/
theorem chain_reach_getLast {α : Type} {R : α → α → Prop} :
    ∀ {l : List α}, List.Chain' R l → ∀ v ∈ l, ∀ last, l.getLast? = some last →
      Relation.ReflTransGen R v last := by
  intro l
  induction l with
  | nil => intro _ v hv; exact absurd hv (List.not_mem_nil v)
  | cons a t ih =>
    intro hchain v hv last hlast
    match t with
    | [] =>
      rcases List.mem_singleton.mp hv with rfl
      simp only [List.getLast?_singleton, Option.some.injEq] at hlast
      exact hlast ▸ Relation.ReflTransGen.refl
    | b :: t' =>
      have hchain' : List.Chain' R (b :: t') := hchain.tail
      have hlast' : (b :: t').getLast? = some last := by
        rwa [List.getLast?_cons_cons] at hlast
      rcases List.mem_cons.mp hv with rfl | hv
      · have hab : R v b := List.chain'_cons.mp hchain |>.1
        exact Relation.ReflTransGen.head hab
          (ih hchain' b (List.mem_cons_self b t') last hlast')
      · exact ih hchain' v hv last hlast'

/-- A vertex on the DFS recursion stack that is reached again closes a
cycle: the stack is a chain and its last element has an edge to the
revisited vertex. -/
theorem stack_cycle {g : JGraph n} {stack : List (Fin n)} {v : Fin n}
    (hchain : List.Chain' (JGraph.AugEdge g) stack)
    (hlink : ∀ last, stack.getLast? = some last → JGraph.AugEdge g last v)
    (hv : v ∈ stack) : JGraph.AugCycle g := by
  have hne : stack ≠ [] := List.ne_nil_of_mem hv
  have hlast : stack.getLast? = some (stack.getLast hne) := List.getLast?_eq_getLast stack hne
  refine ⟨v, Relation.TransGen.tail' ?_ (hlink _ hlast)⟩
  exact chain_reach_getLast hchain v hv _ hlast

/-- Soundness of the cycle-detecting DFS: a `deadlock` outcome implies
a directed cycle in the augmented graph, for any fuel. -/
theorem cdfs_sound {g : JGraph n} {ex : Fin n → List (Fin n)}
    (hex : ∀ u v, v ∈ ex u → JGraph.AugEdge g u v) :
    ∀ fuel : Nat,
      (∀ visited stack v, List.Chain' (JGraph.AugEdge g) stack →
        (∀ last, stack.getLast? = some last → JGraph.AugEdge g last v) →
        cdfsVisit g ex fuel visited stack v = .error .deadlock →
        JGraph.AugCycle g) ∧
      (∀ visited stack l, List.Chain' (JGraph.AugEdge g) stack →
        (∀ last, stack.getLast? = some last → ∀ u ∈ l, JGraph.AugEdge g last u) →
        cdfsSuccs g ex fuel visited stack l = .error .deadlock →
        JGraph.AugCycle g) := by
  intro fuel
  induction fuel with
  | zero =>
    constructor
    · intro visited stack v _ _ h
      rw [cdfsVisit] at h
      exact absurd h (by simp)
    · intro visited stack l _ _ h
      rw [cdfsSuccs] at h
      exact absurd h (by simp)
  | succ f ih =>
    constructor
    · intro visited stack v hchain hlink h
      rw [cdfsVisit] at h
      by_cases hv : v ∈ visited
      · rw [if_pos hv] at h
        by_cases hs : v ∈ stack
        · exact stack_cycle hchain hlink hs
        · rw [if_neg hs] at h
          exact absurd h (by simp)
      · rw [if_neg hv] at h
        have hchain' : List.Chain' (JGraph.AugEdge g) (stack ++ [v]) := by
          rw [List.chain'_append]
          refine ⟨hchain, List.chain'_singleton v, ?_⟩
          intro x hx y hy
          simp only [List.head?_cons, Option.mem_def, Option.some.injEq] at hy
          exact hy ▸ hlink x hx
        have hlink' : ∀ last, (stack ++ [v]).getLast? = some last →
            ∀ u ∈ g.children v ++ g.followOns v ++ ex v, JGraph.AugEdge g last u := by
          intro last hlast u hu
          rw [List.getLast?_concat] at hlast
          rcases Option.some.injEq _ _ ▸ hlast with rfl
          rcases List.mem_append.mp hu with hu | hu
          · rcases List.mem_append.mp hu with hu | hu
            · exact Or.inl hu
            · exact Or.inr (Or.inl hu)
          · exact hex _ _ hu
        rcases hrec : cdfsSuccs g ex f (v :: visited) (stack ++ [v])
            (g.children v ++ g.followOns v ++ ex v) with e | vis
        · rw [hrec] at h
          simp only [Except.error.injEq] at h
          subst h
          exact ih.2 _ _ _ hchain' hlink' hrec
        · rw [hrec] at h
          by_cases hs : v ∈ stack
          · exact stack_cycle hchain hlink hs
          · simp [hs] at h
    · intro visited stack l hchain hlink h
      match l with
      | [] =>
        rw [cdfsSuccs] at h
        exact absurd h (by simp)
      | u :: us =>
        rw [cdfsSuccs] at h
        rcases hrec : cdfsVisit g ex f visited stack u with e | vis
        · rw [hrec] at h
          simp only [Except.error.injEq] at h
          subst h
          exact ih.1 _ _ _ hchain
            (fun last hlast => hlink last hlast u (List.mem_cons_self u us)) hrec
        · rw [hrec] at h
          exact ih.2 _ _ _ hchain
            (fun last hlast u' hu' => hlink last hlast u' (List.mem_cons_of_mem _ hu')) h

theorem cdfsRoots_sound {g : JGraph n} {ex : Fin n → List (Fin n)}
    (hex : ∀ u v, v ∈ ex u → JGraph.AugEdge g u v) {fuel : Nat} :
    ∀ (roots : List (Fin n)) (visited : List (Fin n)),
      cdfsRoots g ex fuel visited roots = .error .deadlock → JGraph.AugCycle g := by
  intro roots
  induction roots with
  | nil =>
    intro visited h
    rw [cdfsRoots] at h
    exact absurd h (by simp)
  | cons r rs ih =>
    intro visited h
    rw [cdfsRoots] at h
    rcases hrec : cdfsVisit g ex fuel visited [] r with e | vis
    · rw [hrec] at h
      simp only [Except.error.injEq] at h
      subst h
      exact (cdfs_sound hex fuel).1 visited [] r List.chain'_nil (by simp) hrec
    · rw [hrec] at h
      exact ih _ h

/-- When no job of the component is predecessor-free, following any
predecessor chain must revisit a vertex, so the (augmented) graph has a
directed cycle. -/
theorem no_roots_cycle {g : JGraph n} {s : Fin n}
    (h : g.getRootJobs s = []) : JGraph.AugCycle g := by
  have hpred : ∀ j, JGraph.UndirReach g s j → g.preds j ≠ [] := by
    intro j hreach hp
    have : j ∈ g.getRootJobs s := mem_getRootJobs.mpr ⟨hreach, hp⟩
    rw [h] at this
    exact absurd this (List.not_mem_nil j)
  -- iterate "first predecessor"
  let step : Fin n → Fin n := fun x => (g.preds x).headD x
  let f : Nat → Fin n := fun k => step^[k] s
  have hstepmem : ∀ x, g.preds x ≠ [] → step x ∈ g.preds x := by
    intro x hx
    rcases hpx : g.preds x with _ | ⟨p, rest⟩
    · exact absurd hpx hx
    · have hstep : step x = p := by
        show (g.preds x).headD x = p
        rw [hpx]
        rfl
      rw [hstep]
      exact List.mem_cons_self p rest
  have hreach : ∀ k, JGraph.UndirReach g s (f k) := by
    intro k
    induction k with
    | zero => exact Relation.ReflTransGen.refl
    | succ m ihm =>
      have hne : g.preds (f m) ≠ [] := hpred _ ihm
      have hmem : step (f m) ∈ g.preds (f m) := hstepmem _ hne
      have hnb : NbStep g.undirNb (f m) (step (f m)) := by
        show step (f m) ∈ g.undirNb (f m)
        exact List.mem_append_left _ (List.mem_append_left _ hmem)
      have : f (m + 1) = step (f m) := Function.iterate_succ_apply' step m s
      rw [this]
      exact Relation.ReflTransGen.tail ihm hnb
  have hedge : ∀ k, JGraph.AugEdge g (f (k + 1)) (f k) := by
    intro k
    have hne : g.preds (f k) ≠ [] := hpred _ (hreach k)
    have hmem : step (f k) ∈ g.preds (f k) := hstepmem _ hne
    have hiter : f (k + 1) = step (f k) := Function.iterate_succ_apply' step k s
    rw [hiter]
    have := List.mem_filter.mp hmem
    rcases List.mem_append.mp (of_decide_eq_true this.2) with hc | hc
    · exact Or.inl hc
    · exact Or.inr (Or.inl hc)
  have hrtg : ∀ i j, i ≤ j → Relation.ReflTransGen (JGraph.AugEdge g) (f j) (f i) := by
    intro i j hij
    induction j, hij using Nat.le_induction with
    | base => exact Relation.ReflTransGen.refl
    | succ m _ ihm => exact Relation.ReflTransGen.head (hedge m) ihm
  have hn0 : 0 < n := Fin.pos s
  obtain ⟨⟨i, hi⟩, ⟨j, hj⟩, hne, hfeq⟩ :=
    Fintype.exists_ne_map_eq_of_card_lt (fun k : Fin (n + 1) => f k)
      (by simp [Fintype.card_fin])
  have hij : i ≠ j := fun hEq => hne (Fin.ext hEq)
  rcases Nat.lt_or_ge i j with hlt | hge
  · rcases Nat.exists_eq_add_of_lt hlt with ⟨m, rfl⟩
    refine ⟨f (i + m + 1), Relation.TransGen.head' (hedge (i + m)) ?_⟩
    have : Relation.ReflTransGen (JGraph.AugEdge g) (f (i + m)) (f i) :=
      hrtg i (i + m) (Nat.le_add_right i m)
    exact hfeq ▸ this
  · have hlt : j < i := Nat.lt_of_le_of_ne hge (fun hEq => hij hEq.symm)
    rcases Nat.exists_eq_add_of_lt hlt with ⟨m, rfl⟩
    refine ⟨f (j + m + 1), Relation.TransGen.head' (hedge (j + m)) ?_⟩
    have : Relation.ReflTransGen (JGraph.AugEdge g) (f (j + m)) (f j) :=
      hrtg j (j + m) (Nat.le_add_right j m)
    exact hfeq ▸ this

end AcyclicLemmas

/-- C3 (amended): `checkJobGraphAcylic` raises
`JobGraphDeadlockException` only when the augmented graph contains a
directed cycle (a cycle unreachable from every root can escape the
check — see the counterexample); and the specification's scenario
`A.addChild(B); A.addChild(C); B.addFollowOn(C); C.addChild(B)` is
rejected. -/
theorem claim3_amended :
    (∀ (n : Nat) (g : JGraph n) (s : Fin n),
        JGraph.checkJobGraphAcylic g s = .error .deadlock → JGraph.AugCycle g) ∧
    JGraph.checkJobGraphAcylic gScenario 0 = .error .deadlock := by
  constructor
  · intro n g s h
    by_cases hroots : g.getRootJobs s = []
    · exact no_roots_cycle hroots
    · simp only [JGraph.checkJobGraphAcylic, if_neg hroots] at h
      rcases hrec : cdfsRoots g (JGraph.impliedEdges g (g.descendants (g.getRootJobs s)))
          (2 + n + ((List.finRange n).map (fun v => (g.children v ++ g.followOns v ++
            JGraph.impliedEdges g (g.descendants (g.getRootJobs s)) v).length)).sum)
          [] (g.getRootJobs s) with e | vis
      · rw [hrec] at h
        simp only [Except.error.injEq] at h
        subst h
        refine cdfsRoots_sound ?_ _ _ hrec
        exact fun u v hv => impliedEdges_augEdge hv
      · rw [hrec] at h
        exact absurd h (by simp)
  · decide

/-- C3 (counterexample): the augmented graph of `R.addChild(C);
A.addChild(B); B.addChild(A); A.addChild(C)` contains the directed
cycle `A → B → A`, yet `checkJobGraphAcylic` (and the whole validation)
accepts the graph, because the cycle is not reachable from the root. -/
theorem claim3_counterexample :
    JGraph.AugCycle gHiddenCycle ∧
    JGraph.checkJobGraphAcylic gHiddenCycle 0 = .ok () ∧
    JGraph.checkJobGraphForDeadlocks gHiddenCycle 0 = .ok () := by
  refine ⟨⟨2, ?_⟩, by decide, by decide⟩
  exact Relation.TransGen.head
    (show JGraph.AugEdge gHiddenCycle 2 3 from Or.inl (by decide))
    (Relation.TransGen.single
      (show JGraph.AugEdge gHiddenCycle 3 2 from Or.inl (by decide)))

/-- C7 (counterexample): the graph `R.addChild(C); A.addChild(B);
B.addChild(A); A.addChild(C)` passes the whole validation, yet the
topological ordering computed from its root omits jobs of the connected
component (it is just `[R]`). -/
theorem claim7_counterexample :
    JGraph.checkJobGraphForDeadlocks gHiddenCycle 0 = .ok () ∧
    JGraph.UndirReach gHiddenCycle 0 2 ∧
    (2 : Fin 4) ∉ JGraph.getTopologicalOrderingOfJobs gHiddenCycle 0 := by
  refine ⟨by decide, ?_, by decide⟩
  exact Relation.ReflTransGen.head
    (show NbStep gHiddenCycle.undirNb 0 1 by decide)
    (Relation.ReflTransGen.single (show NbStep gHiddenCycle.undirNb 1 2 by decide))


section DeletionStaging

/-- `CWorld.commit` never touches the staged-deletion sets. -/
theorem commit_jftd (w : CWorld) (c : CacheState) :
    (w.commit c).jobFilesToDelete = w.jobFilesToDelete := rfl

theorem returnFileSize_jftd {th : Nat} {jid : JobId} {fid : FileId} {src : PathId}
    {ac : Bool} {w w' : CWorld} (h : returnFileSize th jid fid src ac w = .ok w') :
    w'.jobFilesToDelete = w.jobFilesToDelete := by
  unfold returnFileSize at h
  try simp only [] at h
  repeat' split at h
  all_goals first
    | (cases h; rfl)
    | exact absurd h (by simp)

theorem updateJobSpecificFiles_jftd {jid : JobId} {fid : FileId} {path : Option PathId}
    {size : Int} {cached : Option Bool} {w w' : CWorld}
    (h : updateJobSpecificFiles jid fid path size cached w = .ok w') :
    w'.jobFilesToDelete = w.jobFilesToDelete := by
  unfold updateJobSpecificFiles at h
  try simp only [] at h
  repeat' split at h
  all_goals first
    | (cases h; rfl)
    | exact absurd h (by simp)

theorem addToCache_jftd {th : Nat} {jid : JobId} {localPath : PathId} {fid : FileId}
    {isRead mutable isLocalPath : Bool} {w w' : CWorld}
    (h : addToCache th jid localPath fid isRead mutable isLocalPath w = .ok w') :
    w'.jobFilesToDelete = w.jobFilesToDelete := by
  unfold addToCache at h
  try simp only [] at h
  repeat' split at h
  all_goals first
    | (cases h <;> rfl)
    | (have hh := returnFileSize_jftd h; exact hh)

theorem accountForNlink2_jftd {jid : JobId} {localPath : PathId} {w w' : CWorld}
    (h : accountForNlink2 jid localPath w = .ok w') :
    w'.jobFilesToDelete = w.jobFilesToDelete := by
  unfold accountForNlink2 at h
  try simp only [] at h
  repeat' split at h
  all_goals first
    | (cases h; rfl)
    | exact absurd h (by simp)

theorem writeGlobalFileC_jftd {th : Nat} {jid : JobId} {path : PathId} {isLocal : Bool}
    {w : CWorld} {r : FileId × CWorld} (h : writeGlobalFileC th jid path isLocal w = .ok r) :
    r.2.jobFilesToDelete = w.jobFilesToDelete := by
  unfold writeGlobalFileC at h
  try simp only [] at h
  repeat' split at h
  all_goals first
    | (cases h <;> rfl)
    | (rename_i heq; cases h <;> first
        | (have hh := addToCache_jftd heq; exact hh)
        | (have hh := updateJobSpecificFiles_jftd heq; exact hh))

theorem readGlobalFileC_jftd {th : Nat} {jid : JobId} {fid : FileId}
    {userPath : Option (PathId × Bool)} {cache mutable : Bool}
    {w : CWorld} {r : PathId × CWorld} (h : readGlobalFileC th jid fid userPath cache mutable w = .ok r) :
    r.2.jobFilesToDelete = w.jobFilesToDelete := by
  rcases userPath with _ | pu
  all_goals unfold readGlobalFileC at h
  all_goals try simp only [] at h
  all_goals repeat' split at h
  all_goals first
    | (cases h <;> rfl)
    | (rename_i heq; cases h <;> first
        | (have hh := returnFileSize_jftd heq; exact hh)
        | (have hh := addToCache_jftd heq; exact hh)
        | (have hh := updateJobSpecificFiles_jftd heq; exact hh))
    | (rename_i hif x3 w3v hup; cases h <;> (
        have h3 := updateJobSpecificFiles_jftd hup
        split at hif <;> first
          | (have h2 := accountForNlink2_jftd hif; exact h3.trans h2)
          | (cases hif; exact h3)))
    | (rename_i hif hup; cases h <;> (
        have h3 := updateJobSpecificFiles_jftd hup
        split at hif <;> first
          | (have h2 := accountForNlink2_jftd hif; exact h3.trans h2)
          | (cases hif; exact h3)))

theorem dlfLoop_jftd {jid : JobId} {fid : FileId} :
    ∀ {items : List (Option PathId × Int)} {c : CacheState} {js : JState} {w : CWorld}
      {ls : Option Int} {r : CacheState × JState × CWorld × Option Int},
      dlfLoop jid fid items c js w ls = .ok r →
      r.2.2.1.jobFilesToDelete = w.jobFilesToDelete := by
  intro items
  induction items with
  | nil =>
    intro c js w ls r h
    rw [dlfLoop] at h
    cases h
    rfl
  | cons item rest ih =>
    intro c js w ls r h
    rcases item with ⟨pathOpt, size⟩
    rw [dlfLoop.eq_def] at h
    try simp only [] at h
    repeat' split at h
    all_goals first
      | (cases h <;> rfl)
      | (have hh := ih h; exact hh)

theorem deleteLocalFileOp_jftd {th : Nat} {jid : JobId} {cl : Bool} {fid : FileId}
    {w w' : CWorld} (h : deleteLocalFileOp th jid cl fid w = .ok w') :
    w'.jobFilesToDelete = w.jobFilesToDelete := by
  unfold deleteLocalFileOp at h
  try simp only [] at h
  repeat' split at h
  all_goals first
    | (cases h <;> rfl)
    | (cases h <;> (have hh := dlfLoop_jftd (by assumption); exact hh))

theorem removeSingleCachedFile_jftd {th : Nat} {fid : FileId} {w w' : CWorld}
    (h : removeSingleCachedFile th fid w = .ok w') :
    w'.jobFilesToDelete = w.jobFilesToDelete := by
  unfold removeSingleCachedFile at h
  try simp only [] at h
  repeat' split at h
  all_goals cases h <;> rfl

theorem rjrLoop_jftd {th : Nat} {jid : JobId} :
    ∀ {fids : List FileId} {w w' : CWorld}, rjrLoop th jid fids w = .ok w' →
      w'.jobFilesToDelete = w.jobFilesToDelete := by
  intro fids
  induction fids with
  | nil =>
    intro w w' h
    rw [rjrLoop] at h
    cases h
    rfl
  | cons f rest ih =>
    intro w w' h
    rw [rjrLoop] at h
    try simp only [] at h
    split at h
    · exact absurd h (by simp)
    · exact (ih h).trans (deleteLocalFileOp_jftd (by assumption))

theorem returnJobReqsOp_jftd {th : Nat} {jid : JobId} {reqs : Int} {w w' : CWorld}
    (h : returnJobReqsOp th jid reqs w = .ok w') :
    w'.jobFilesToDelete = w.jobFilesToDelete := by
  unfold returnJobReqsOp at h
  try simp only [] at h
  repeat' split at h
  all_goals first
    | (cases h <;> rfl)
    | (cases h <;> (have hh := rjrLoop_jftd (by assumption); exact hh))

theorem alistLookup_set_self {κ ν : Type} [DecidableEq κ]
    (l : List (κ × ν)) (k : κ) (v : ν) : alistLookup (alistSet l k v) k = some v := by
  induction l with
  | nil => simp [alistSet, alistLookup]
  | cons p rest ih =>
    rcases p with ⟨k0, v0⟩
    by_cases h : k0 = k
    · simp [alistSet, alistLookup, h]
    · simp [alistSet, alistLookup, h, ih]

theorem alistLookup_set_ne {κ ν : Type} [DecidableEq κ]
    (l : List (κ × ν)) (k k' : κ) (v : ν) (hk : k' ≠ k) :
    alistLookup (alistSet l k v) k' = alistLookup l k' := by
  induction l with
  | nil => simp [alistSet, alistLookup, Ne.symm hk]
  | cons p rest ih =>
    rcases p with ⟨k0, v0⟩
    by_cases h : k0 = k
    · subst h
      simp [alistSet, alistLookup, Ne.symm hk]
    · by_cases h' : k0 = k'
      · simp [alistSet, alistLookup, h, h', hk]
      · simp [alistSet, alistLookup, h, h', ih]

/-- Membership in a job's staged-deletion set survives `addFtd`. -/
theorem ftd_addFtd_mono {w : CWorld} {j j' : JobId} {f f' : FileId}
    (hf : f ∈ w.ftd j) : f ∈ (w.addFtd j' f').ftd j := by
  show f ∈ (alistLookup (w.addFtd j' f').jobFilesToDelete j).getD []
  by_cases hj : j = j'
  · subst hj
    show f ∈ (alistLookup (alistSet w.jobFilesToDelete j
        (if f' ∈ w.ftd j then w.ftd j else w.ftd j ++ [f'])) j).getD []
    rw [alistLookup_set_self]
    by_cases hmem : f' ∈ w.ftd j
    · rw [if_pos hmem]
      exact hf
    · rw [if_neg hmem]
      exact List.mem_append_left _ hf
  · show f ∈ (alistLookup (alistSet w.jobFilesToDelete j'
        (if f' ∈ w.ftd j' then w.ftd j' else w.ftd j' ++ [f'])) j).getD []
    rw [alistLookup_set_ne _ _ _ _ hj]
    exact hf

/-- Two worlds with the same `jobFilesToDelete` stage the same sets. -/
theorem ftd_congr {w w' : CWorld} (h : w'.jobFilesToDelete = w.jobFilesToDelete)
    (j : JobId) : w'.ftd j = w.ftd j := by
  unfold CWorld.ftd
  rw [h]

theorem deleteGlobalFileC_ftd_mono {th : Nat} {jid : JobId} {cl : Bool} {fid : FileId}
    {w w' : CWorld} (h : deleteGlobalFileC th jid cl fid w = .ok w') {j : JobId}
    {f : FileId} (hf : f ∈ w.ftd j) : f ∈ w'.ftd j := by
  unfold deleteGlobalFileC at h
  try simp only [] at h
  split at h
  · exact absurd h (by simp)
  · split at h
    · exact absurd h (by simp)
    · rename_i w2 h2
      split at h
      · exact absurd h (by simp)
      · rename_i w3 h3
        cases h
        have h2jftd : w2.jobFilesToDelete = w.jobFilesToDelete := by
          split at h2
          · have hh := deleteLocalFileOp_jftd h2
            exact hh
          · cases h2; rfl
        have h3jftd : w3.jobFilesToDelete = w.jobFilesToDelete := by
          have : w3.jobFilesToDelete = w2.jobFilesToDelete := by
            split at h3
            · have hh := removeSingleCachedFile_jftd h3
              exact hh
            · cases h3; rfl
          exact this.trans h2jftd
        refine ftd_addFtd_mono ?_
        rw [ftd_congr h3jftd]
        exact hf


theorem cleanCacheOp_jftd {th : Nat} {jid : JobId} {reqs : Int} {w w' : CWorld}
    (h : cleanCacheOp th jid reqs w = .ok w') :
    w'.jobFilesToDelete = w.jobFilesToDelete := by
  unfold cleanCacheOp at h
  try simp only [] at h
  repeat' split at h
  all_goals cases h <;> rfl

/-- `deleteGlobalFile` puts the ID into this job's staged-deletion set. -/
theorem mem_ftd_addFtd_self (w : CWorld) (j : JobId) (f : FileId) :
    f ∈ (w.addFtd j f).ftd j := by
  show f ∈ (alistLookup (alistSet w.jobFilesToDelete j
      (if f ∈ w.ftd j then w.ftd j else w.ftd j ++ [f])) j).getD []
  rw [alistLookup_set_self]
  by_cases hmem : f ∈ w.ftd j
  · rw [if_pos hmem]
    exact hmem
  · rw [if_neg hmem]
    exact List.mem_append_right _ (by simp)

/-- No successful cached-store operation ever removes an ID from a
job's staged-deletion set. -/
theorem applyCachedOp_ftd_mono {th : Nat} {w w' : CWorld} {op : CachedOp}
    (h : applyCachedOp th w op = .ok w') {j : JobId} {f : FileId}
    (hf : f ∈ w.ftd j) : f ∈ w'.ftd j := by
  cases op with
  | cleanCache jid reqs =>
    have hh := cleanCacheOp_jftd h
    rw [ftd_congr hh]
    exact hf
  | writeGlobal jid path isLocal =>
    simp only [applyCachedOp] at h
    rcases hw : writeGlobalFileC th jid path isLocal w with e | r
    · rw [hw] at h
      exact absurd h (by simp [Except.map])
    · rw [hw] at h
      cases h
      have hh := writeGlobalFileC_jftd hw
      rw [ftd_congr hh]
      exact hf
  | readGlobal jid fid up c m =>
    simp only [applyCachedOp] at h
    rcases hr : readGlobalFileC th jid fid up c m w with e | r
    · rw [hr] at h
      exact absurd h (by simp [Except.map])
    · rw [hr] at h
      cases h
      have hh := readGlobalFileC_jftd hr
      rw [ftd_congr hh]
      exact hf
  | readStream jid fid =>
    simp only [applyCachedOp] at h
    rcases hr : readGlobalFileStreamC jid fid w with e | b
    · rw [hr] at h
      exact absurd h (by simp [Except.map])
    · rw [hr] at h
      cases h
      exact hf
  | deleteLocal jid cl fid =>
    have hh := deleteLocalFileOp_jftd h
    rw [ftd_congr hh]
    exact hf
  | deleteGlobal jid cl fid =>
    exact deleteGlobalFileC_ftd_mono h hf
  | returnReqs jid reqs =>
    have hh := returnJobReqsOp_jftd h
    rw [ftd_congr hh]
    exact hf
  | returnSize jid fid srcp ac =>
    have hh := returnFileSize_jftd h
    rw [ftd_congr hh]
    exact hf

/-- Staged-deletion membership survives any successful sequence of
cached-store operations. -/
theorem runCachedOps_ftd_mono {th : Nat} :
    ∀ {ops : List CachedOp} {w w' : CWorld}, runCachedOps th w ops = .ok w' →
      ∀ {j : JobId} {f : FileId}, f ∈ w.ftd j → f ∈ w'.ftd j := by
  intro ops
  induction ops with
  | nil =>
    intro w w' h j f hf
    rw [runCachedOps] at h
    cases h
    exact hf
  | cons op rest ih =>
    intro w w' h j f hf
    rw [runCachedOps] at h
    split at h
    · exact absurd h (by simp)
    · rename_i w1 ha
      exact ih h (applyCachedOp_ftd_mono ha hf)

/-- The guard of the cached `readGlobalFile`: a file staged for
deletion raises a `RuntimeError`. -/
theorem readGlobalFileC_deleted {th : Nat} {jid : JobId} {fid : FileId} {w : CWorld}
    (hm : fid ∈ w.ftd jid) (up : Option (PathId × Bool)) (c m : Bool) :
    readGlobalFileC th jid fid up c m w = .error .runtimeFailure := by
  unfold readGlobalFileC
  rw [if_pos hm]

/-- The guard of the cached `readGlobalFileStream`. -/
theorem readGlobalFileStreamC_deleted {jid : JobId} {fid : FileId} {w : CWorld}
    (hm : fid ∈ w.ftd jid) :
    readGlobalFileStreamC jid fid w = .error .runtimeFailure := by
  unfold readGlobalFileStreamC
  rw [if_pos hm]

theorem baseWriteGlobalFile_ftdel (fs : BaseFileStore) (il : Bool) (p : Nat) :
    (baseWriteGlobalFile fs il p).2.filesToDelete = fs.filesToDelete := by
  cases il <;> rfl

theorem baseReadGlobalFile_ftdel {fs : BaseFileStore} {fid : Nat}
    {up : Option (Nat × Bool)} {c m : Bool} {r : Nat × BaseFileStore}
    (h : baseReadGlobalFile fs fid up c m = .ok r) :
    r.2.filesToDelete = fs.filesToDelete := by
  unfold baseReadGlobalFile at h
  try simp only [] at h
  repeat' split at h
  all_goals cases h <;> rfl

/-- `deleteGlobalFile` stages the ID in the baseline store. -/
theorem baseDeleteGlobalFile_mem (fs : BaseFileStore) (fid : Nat) :
    fid ∈ (baseDeleteGlobalFile fs fid).filesToDelete := by
  show fid ∈ (if fid ∈ fs.filesToDelete then fs.filesToDelete else fs.filesToDelete ++ [fid])
  by_cases hmem : fid ∈ fs.filesToDelete
  · rw [if_pos hmem]
    exact hmem
  · rw [if_neg hmem]
    exact List.mem_append_right _ (by simp)

/-- No successful baseline operation removes an ID from `filesToDelete`. -/
theorem applyBaseOp_ftdel_mono {fs fs' : BaseFileStore} {op : BaseOp}
    (h : applyBaseOp fs op = .ok fs') {f : Nat} (hf : f ∈ fs.filesToDelete) :
    f ∈ fs'.filesToDelete := by
  cases op with
  | writeGlobal il p =>
    cases h
    rw [baseWriteGlobalFile_ftdel]
    exact hf
  | readGlobal fid up c m =>
    simp only [applyBaseOp] at h
    rcases hr : baseReadGlobalFile fs fid up c m with e | r
    · rw [hr] at h
      exact absurd h (by simp [Except.map])
    · rw [hr] at h
      cases h
      rw [baseReadGlobalFile_ftdel hr]
      exact hf
  | readStream fid =>
    simp only [applyBaseOp] at h
    rcases hr : baseReadGlobalFileStream fs fid with e | b
    · rw [hr] at h
      exact absurd h (by simp [Except.map])
    · rw [hr] at h
      cases h
      exact hf
  | deleteGlobal fid =>
    cases h
    show f ∈ (if fid ∈ fs.filesToDelete then fs.filesToDelete else fs.filesToDelete ++ [fid])
    by_cases hmem : fid ∈ fs.filesToDelete
    · rw [if_pos hmem]
      exact hf
    · rw [if_neg hmem]
      exact List.mem_append_left _ hf

/-- Staged-deletion membership survives any successful sequence of
baseline operations. -/
theorem runBaseOps_ftdel_mono :
    ∀ {ops : List BaseOp} {fs fs' : BaseFileStore}, runBaseOps fs ops = .ok fs' →
      ∀ {f : Nat}, f ∈ fs.filesToDelete → f ∈ fs'.filesToDelete := by
  intro ops
  induction ops with
  | nil =>
    intro fs fs' h f hf
    rw [runBaseOps] at h
    cases h
    exact hf
  | cons op rest ih =>
    intro fs fs' h f hf
    rw [runBaseOps] at h
    split at h
    · exact absurd h (by simp)
    · rename_i fs1 ha
      exact ih h (applyBaseOp_ftdel_mono ha hf)

theorem baseReadGlobalFile_deleted {fs : BaseFileStore} {fid : Nat}
    (hm : fid ∈ fs.filesToDelete) (up : Option (Nat × Bool)) (c m : Bool) :
    baseReadGlobalFile fs fid up c m = .error .deletedAccess := by
  unfold baseReadGlobalFile
  rw [if_pos hm]

theorem baseReadGlobalFileStream_deleted {fs : BaseFileStore} {fid : Nat}
    (hm : fid ∈ fs.filesToDelete) :
    baseReadGlobalFileStream fs fid = .error .deletedAccess := by
  unfold baseReadGlobalFileStream
  rw [if_pos hm]

end DeletionStaging

/-- C10: in the baseline `FileStore`, once `deleteGlobalFile(fileID)`
has run, any later `readGlobalFile(fileID)` or
`readGlobalFileStream(fileID)` in the same job — after any successful
interleaving of further operations — raises a `RuntimeError`; in the
`CachedFileStore`, once `deleteGlobalFile(fileID)` completes for a job,
any later `readGlobalFile(fileID)` or `readGlobalFileStream(fileID)`
by that job raises a `RuntimeError`. -/
theorem claim10_delete_then_read_raises :
    (∀ (fs : BaseFileStore) (fid : Nat) (ops : List BaseOp) (fs' : BaseFileStore),
        runBaseOps (baseDeleteGlobalFile fs fid) ops = .ok fs' →
        (∀ (up : Option (Nat × Bool)) (c m : Bool),
            baseReadGlobalFile fs' fid up c m = .error .deletedAccess) ∧
        baseReadGlobalFileStream fs' fid = .error .deletedAccess) ∧
    (∀ (th : Nat) (jid : JobId) (cl : Bool) (fid : FileId) (w w1 w2 : CWorld)
        (ops : List CachedOp),
        deleteGlobalFileC th jid cl fid w = .ok w1 →
        runCachedOps th w1 ops = .ok w2 →
        (∀ (up : Option (PathId × Bool)) (c m : Bool),
            readGlobalFileC th jid fid up c m w2 = .error .runtimeFailure) ∧
        readGlobalFileStreamC jid fid w2 = .error .runtimeFailure) := by
  constructor
  · intro fs fid ops fs' hrun
    have hm : fid ∈ fs'.filesToDelete :=
      runBaseOps_ftdel_mono hrun (baseDeleteGlobalFile_mem fs fid)
    exact ⟨fun up c m => baseReadGlobalFile_deleted hm up c m,
      baseReadGlobalFileStream_deleted hm⟩
  · intro th jid cl fid w w1 w2 ops hdel hrun
    have hm1 : fid ∈ w1.ftd jid := by
      unfold deleteGlobalFileC at hdel
      try simp only [] at hdel
      split at hdel
      · exact absurd hdel (by simp)
      · split at hdel
        · exact absurd hdel (by simp)
        · rename_i w2a h2
          split at hdel
          · exact absurd hdel (by simp)
          · rename_i w3 h3
            cases hdel
            exact mem_ftd_addFtd_self _ jid fid
    have hm : fid ∈ w2.ftd jid := runCachedOps_ftd_mono hrun hm1
    exact ⟨fun up c m => readGlobalFileC_deleted hm up c m,
      readGlobalFileStreamC_deleted hm⟩


section C1Balance

theorem alistLookup_all {κ ν : Type} [DecidableEq κ] {p : κ × ν → Bool} :
    ∀ {l : List (κ × ν)}, l.all p = true → ∀ {k : κ} {v : ν},
      alistLookup l k = some v → p (k, v) = true := by
  intro l
  induction l with
  | nil =>
    intro _ k v h
    simp [alistLookup] at h
  | cons q rest ih =>
    intro hall k v h
    rcases q with ⟨k0, v0⟩
    simp only [List.all_cons, Bool.and_eq_true] at hall
    by_cases hk : k0 = k
    · subst hk
      rw [alistLookup, if_pos rfl] at h
      cases h
      exact hall.1
    · rw [alistLookup, if_neg hk] at h
      exact ih hall.2 h

theorem all_alistSet {κ ν : Type} [DecidableEq κ] {p : κ × ν → Bool} :
    ∀ {l : List (κ × ν)}, l.all p = true → ∀ {k : κ} {v : ν},
      p (k, v) = true → (alistSet l k v).all p = true := by
  intro l
  induction l with
  | nil =>
    intro _ k v hv
    simp [alistSet, hv]
  | cons q rest ih =>
    intro hall k v hv
    rcases q with ⟨k0, v0⟩
    simp only [List.all_cons, Bool.and_eq_true] at hall
    by_cases hk : k0 = k
    · subst hk
      simp [alistSet, hv, hall.2]
    · simp [alistSet, hk, hall.1, hv, ih hall.2]

theorem all_alistPop {κ ν : Type} [DecidableEq κ] {p : κ × ν → Bool} :
    ∀ {l : List (κ × ν)}, l.all p = true → ∀ (k : κ),
      (alistPop l k).all p = true := by
  intro l
  induction l with
  | nil =>
    intro _ k
    simp [alistPop]
  | cons q rest ih =>
    intro hall k
    rcases q with ⟨k0, v0⟩
    simp only [List.all_cons, Bool.and_eq_true] at hall
    by_cases hk : k0 = k
    · simp [alistPop, hk, hall.2]
    · simp [alistPop, hk, hall.1, ih hall.2]

theorem sizesOk_localFile {w : CWorld} {p : PathId} {lf : LocalFile}
    (hsz : sizesOk w = true) (h : alistLookup w.fs.localFiles p = some lf) :
    0 ≤ lf.size := by
  simp only [sizesOk, Bool.and_eq_true] at hsz
  have := alistLookup_all hsz.1.1 h
  simpa using this

theorem sizesOk_cacheEntry {w : CWorld} {f : FileId} {ce : CacheEntry}
    (hsz : sizesOk w = true) (h : alistLookup w.fs.cacheEntries f = some ce) :
    0 ≤ ce.size := by
  simp only [sizesOk, Bool.and_eq_true] at hsz
  have := alistLookup_all hsz.1.2 h
  simpa using this

theorem sizesOk_storeFile {w : CWorld} {f : FileId} {s : Int}
    (hsz : sizesOk w = true) (h : alistLookup w.storeFiles f = some s) :
    0 ≤ s := by
  simp only [sizesOk, Bool.and_eq_true] at hsz
  have := alistLookup_all hsz.2 h
  simpa using this

/-- Every snapshot committed by `cacheInfo.write` on top of `w` is
either an old snapshot or the newly written one. -/
theorem newCommits_commit {w : CWorld} {c : CacheState} (hc : c.isBalanced = true) :
    ∀ x ∈ (w.commit c).committed, x ∈ w.committed ∨ x.isBalanced = true := by
  intro x hx
  rcases List.mem_cons.mp hx with h | h
  · right
    rw [h]
    exact hc
  · left
    exact h

theorem newCommits_trans {w w1 w2 : CWorld}
    (h1 : ∀ x ∈ w1.committed, x ∈ w.committed ∨ x.isBalanced = true)
    (h2 : ∀ x ∈ w2.committed, x ∈ w1.committed ∨ x.isBalanced = true) :
    ∀ x ∈ w2.committed, x ∈ w.committed ∨ x.isBalanced = true := by
  intro x hx
  rcases h2 x hx with h | h
  · exact h1 x h
  · exact Or.inr h

/-- `_freeUpSpace` returns only after rebalancing the equation. -/
theorem evictLoop_ok_balanced {th : Nat} :
    ∀ {l : List (FileId × CacheEntry)} {c : CacheState} {fs : FSModel}
      {cf : CacheState × FSModel}, evictLoop th l c fs = .ok cf →
      cf.1.isBalanced = true := by
  intro l
  induction l with
  | nil =>
    intro c fs cf h
    rw [evictLoop] at h
    split at h
    · rename_i hb
      cases h
      exact hb
    · exact absurd h (by simp)
  | cons q0 rest ih =>
    intro c fs cf h
    rw [evictLoop] at h
    split at h
    · rename_i hb
      cases h
      exact hb
    · rcases q0 with ⟨fid, ce⟩
      try simp only [] at h
      repeat' split at h
      all_goals first
        | exact ih h
        | exact absurd h (by simp)

/-- The eviction loop only pops cache entries; local files and any
per-entry size bound survive it. -/
theorem evictLoop_fs {th : Nat} :
    ∀ {l : List (FileId × CacheEntry)} {c : CacheState} {fs : FSModel}
      {cf : CacheState × FSModel}, evictLoop th l c fs = .ok cf →
      cf.2.localFiles = fs.localFiles ∧
      ∀ (q : FileId × CacheEntry → Bool), fs.cacheEntries.all q = true →
        cf.2.cacheEntries.all q = true := by
  intro l
  induction l with
  | nil =>
    intro c fs cf h
    rw [evictLoop] at h
    split at h
    · cases h
      exact ⟨rfl, fun q hq => hq⟩
    · exact absurd h (by simp)
  | cons q0 rest ih =>
    intro c fs cf h
    rw [evictLoop] at h
    split at h
    · cases h
      exact ⟨rfl, fun q hq => hq⟩
    · rcases q0 with ⟨fid, ce⟩
      try simp only [] at h
      repeat' split at h
      all_goals first
        | (have hr := ih h
           exact ⟨hr.1, fun q hq => hr.2 q (all_alistPop hq fid)⟩)
        | exact absurd h (by simp)

/-- `cleanCache` commits only balanced snapshots. -/
theorem cleanCacheOp_balanceOk {th : Nat} {jid : JobId} {reqs : Int} {w w' : CWorld}
    (h : cleanCacheOp th jid reqs w = .ok w') (hsz : sizesOk w = true) :
    (∀ x ∈ w'.committed, x ∈ w.committed ∨ x.isBalanced = true) ∧
    w'.cs.isBalanced = true ∧ sizesOk w' = true := by
  unfold cleanCacheOp at h
  try simp only [] at h
  split at h
  · exact absurd h (by simp)
  · split at h
    · rename_i hb2
      cases h
      exact ⟨newCommits_commit hb2, hb2, hsz⟩
    · split at h
      · exact absurd h (by simp)
      · rename_i cf hev
        cases h
        have hb := evictLoop_ok_balanced hev
        have hfs := evictLoop_fs hev
        refine ⟨newCommits_commit hb, hb, ?_⟩
        simp only [sizesOk, CWorld.commit, Bool.and_eq_true] at hsz ⊢
        exact ⟨⟨by rw [hfs.1]; exact hsz.1.1, hfs.2 _ hsz.1.2⟩, hsz.2⟩

/-- `updateJobSpecificFiles` rewrites only the per-job file map; the
snapshot it commits is as balanced as the current one. -/
theorem updateJobSpecificFiles_balanceOk {jid : JobId} {fid : FileId}
    {path : Option PathId} {size : Int} {cached : Option Bool} {w w' : CWorld}
    (h : updateJobSpecificFiles jid fid path size cached w = .ok w')
    (hsz : sizesOk w = true) (hbal : w.cs.isBalanced = true) :
    (∀ x ∈ w'.committed, x ∈ w.committed ∨ x.isBalanced = true) ∧
    w'.cs.isBalanced = true ∧ sizesOk w' = true := by
  unfold updateJobSpecificFiles at h
  try simp only [] at h
  repeat' split at h
  all_goals cases h
  all_goals refine ⟨newCommits_commit ?_, ?_, hsz⟩
  all_goals simp only [CacheState.isBalanced, CWorld.commit, decide_eq_true_eq] at hbal ⊢
  all_goals omega

/-- `returnFileSize` moves a nonnegative size from `sigmaJob` to
`cached` (or just subtracts it), so the snapshot it commits stays
balanced. -/
theorem returnFileSize_balanceOk {th : Nat} {jid : JobId} {fid : FileId} {src : PathId}
    {ac : Bool} {w w' : CWorld} (h : returnFileSize th jid fid src ac w = .ok w')
    (hsz : sizesOk w = true) (hbal : w.cs.isBalanced = true) :
    (∀ x ∈ w'.committed, x ∈ w.committed ∨ x.isBalanced = true) ∧
    w'.cs.isBalanced = true ∧ sizesOk w' = true := by
  unfold returnFileSize at h
  rcases hlf : alistLookup w.fs.localFiles src with _ | lf
  · rw [hlf] at h
    exact absurd h (by simp)
  · rw [hlf] at h
    try simp only [] at h
    have hfs : 0 ≤ lf.size := sizesOk_localFile hsz hlf
    repeat' split at h
    all_goals cases h
    all_goals refine ⟨newCommits_commit ?_, ?_, hsz⟩
    all_goals simp only [CacheState.isBalanced, CWorld.commit, decide_eq_true_eq] at hbal ⊢
    all_goals omega

/-- `_accountForNlinkEquals2` subtracts a nonnegative size from
`sigmaJob`. -/
theorem accountForNlink2_balanceOk {jid : JobId} {lp : PathId} {w w' : CWorld}
    (h : accountForNlink2 jid lp w = .ok w') (hsz : sizesOk w = true)
    (hbal : w.cs.isBalanced = true) :
    (∀ x ∈ w'.committed, x ∈ w.committed ∨ x.isBalanced = true) ∧
    w'.cs.isBalanced = true ∧ sizesOk w' = true := by
  unfold accountForNlink2 at h
  rcases hlf : alistLookup w.fs.localFiles lp with _ | lf
  · rw [hlf] at h
    exact absurd h (by simp)
  · rw [hlf] at h
    try simp only [] at h
    have hfs : 0 ≤ lf.size := sizesOk_localFile hsz hlf
    repeat' split at h
    all_goals cases h
    all_goals refine ⟨newCommits_commit ?_, ?_, hsz⟩
    all_goals simp only [CacheState.isBalanced, CWorld.commit, decide_eq_true_eq] at hbal ⊢
    all_goals omega

/-- `addToCache` either commits a snapshot it has explicitly checked
(undoing the `cached` bump when it unbalances the equation) or defers
to `returnFileSize`. -/
theorem addToCache_balanceOk {th : Nat} {jid : JobId} {lp : PathId} {fid : FileId}
    {isRead mutable isLocalPath : Bool} {w w' : CWorld}
    (h : addToCache th jid lp fid isRead mutable isLocalPath w = .ok w')
    (hsz : sizesOk w = true) (hbal : w.cs.isBalanced = true) :
    (∀ x ∈ w'.committed, x ∈ w.committed ∨ x.isBalanced = true) ∧
    w'.cs.isBalanced = true ∧ sizesOk w' = true := by
  unfold addToCache at h
  split at h
  · exact absurd h (by simp)
  · split at h
    · rcases hce : alistLookup w.fs.cacheEntries fid with _ | ce
      · rw [hce] at h
        exact absurd h (by simp)
      · rw [hce] at h
        try simp only [] at h
        have hces : 0 ≤ ce.size := sizesOk_cacheEntry hsz hce
        repeat' split at h
        all_goals cases h
        all_goals refine ⟨newCommits_commit ?_, ?_, ?_⟩ <;> first
          | (simp only [CacheState.isBalanced, CWorld.commit, decide_eq_true_eq] at *
             omega)
          | (simp only [sizesOk, CWorld.commit, Bool.and_eq_true] at hsz ⊢
             refine ⟨⟨all_alistSet hsz.1.1 (by simp [hces]), ?_⟩, hsz.2⟩
             first
               | exact all_alistPop hsz.1.2 fid
               | exact hsz.1.2)
    · split at h
      · rcases hce : alistLookup w.fs.cacheEntries fid with _ | ce
        · rw [hce] at h
          exact absurd h (by simp)
        · rw [hce] at h
          try simp only [] at h
          have hces : 0 ≤ ce.size := sizesOk_cacheEntry hsz hce
          have hh := returnFileSize_balanceOk h
            (by simp only [sizesOk, Bool.and_eq_true] at hsz ⊢
                exact ⟨⟨all_alistSet hsz.1.1 (by simp [hces]), hsz.1.2⟩, hsz.2⟩)
            hbal
          exact hh
      · rcases hlf : alistLookup w.fs.localFiles lp with _ | lf
        · rw [hlf] at h
          exact absurd h (by simp)
        · rw [hlf] at h
          try simp only [] at h
          split at h
          · exact absurd h (by simp)
          · have hlfs : 0 ≤ lf.size := sizesOk_localFile hsz hlf
            have hh := returnFileSize_balanceOk h
              (by simp only [sizesOk, Bool.and_eq_true] at hsz ⊢
                  exact ⟨⟨all_alistSet hsz.1.1 (by simp [hlfs]),
                    all_alistSet hsz.1.2 (by simp [hlfs])⟩, hsz.2⟩)
              hbal
            exact hh

/-- `writeGlobalFile` registers the store file, then hands the
state-file writes to `addToCache` or `updateJobSpecificFiles`. -/
theorem writeGlobalFileC_balanceOk {th : Nat} {jid : JobId} {path : PathId} {il : Bool}
    {w : CWorld} {r : FileId × CWorld} (h : writeGlobalFileC th jid path il w = .ok r)
    (hsz : sizesOk w = true) (hbal : w.cs.isBalanced = true) :
    (∀ x ∈ r.2.committed, x ∈ w.committed ∨ x.isBalanced = true) ∧
    r.2.cs.isBalanced = true ∧ sizesOk r.2 = true := by
  unfold writeGlobalFileC at h
  split at h
  · rcases hjs : alistLookup w.cs.jobState jid with _ | js
    · rw [hjs] at h
      exact absurd h (by simp)
    · rw [hjs] at h
      rcases hlf : alistLookup w.fs.localFiles path with _ | lf
      · rw [hlf] at h
        exact absurd h (by simp)
      · rw [hlf] at h
        try simp only [] at h
        have hlfs : 0 ≤ lf.size := sizesOk_localFile hsz hlf
        split at h
        · split at h
          · exact absurd h (by simp)
          · rename_i w2 hstep
            cases h
            have hh := addToCache_balanceOk hstep
              (by simp only [sizesOk, Bool.and_eq_true] at hsz ⊢
                  exact ⟨hsz.1, all_alistSet hsz.2 (by simp [hlfs])⟩)
              hbal
            exact hh
        · split at h
          · exact absurd h (by simp)
          · rename_i w2 hstep
            cases h
            have hh := updateJobSpecificFiles_balanceOk hstep
              (by simp only [sizesOk, Bool.and_eq_true] at hsz ⊢
                  exact ⟨hsz.1, all_alistSet hsz.2 (by simp [hlfs])⟩)
              hbal
            exact hh
  · rcases hlf : alistLookup w.fs.localFiles path with _ | lf
    · rw [hlf] at h
      exact absurd h (by simp)
    · rw [hlf] at h
      try simp only [] at h
      split at h
      · exact absurd h (by simp)
      · rename_i w2 hstep
        cases h
        have hlfs : 0 ≤ lf.size := sizesOk_localFile hsz hlf
        have hh := updateJobSpecificFiles_balanceOk hstep
          (by simp only [sizesOk, Bool.and_eq_true] at hsz ⊢
              exact ⟨hsz.1, all_alistSet hsz.2 (by simp [hlfs])⟩)
          hbal
        exact hh

/-- `readGlobalFile` commits only through `returnFileSize`,
`addToCache`, `updateJobSpecificFiles`, `_accountForNlinkEquals2` or a
`jobState`-only write, all of which preserve balance. -/
theorem readGlobalFileC_balanceOk {th : Nat} {jid : JobId} {fid : FileId}
    {up : Option (PathId × Bool)} {ca mu : Bool} {w : CWorld} {r : PathId × CWorld}
    (h : readGlobalFileC th jid fid up ca mu w = .ok r)
    (hsz : sizesOk w = true) (hbal : w.cs.isBalanced = true) :
    (∀ x ∈ r.2.committed, x ∈ w.committed ∨ x.isBalanced = true) ∧
    r.2.cs.isBalanced = true ∧ sizesOk r.2 = true := by
  rcases up with _ | pu
  all_goals unfold readGlobalFileC at h
  all_goals try simp only [] at h
  all_goals repeat' split at h
  all_goals first
    | (cases h <;> exact ⟨fun x hx => Or.inl hx, hbal, hsz⟩)
    | (rename_i heq; cases h <;> (
        have hces := sizesOk_cacheEntry hsz (by assumption)
        have hh := returnFileSize_balanceOk heq
          (by simp only [sizesOk, Bool.and_eq_true] at hsz ⊢
              exact ⟨⟨all_alistSet hsz.1.1 (by simp [hces]), hsz.1.2⟩, hsz.2⟩)
          hbal
        exact hh))
    | (rename_i heq; cases h <;> (
        have hsts := sizesOk_storeFile hsz (by assumption)
        have hh := addToCache_balanceOk heq
          (by simp only [sizesOk, Bool.and_eq_true] at hsz ⊢
              exact ⟨⟨hsz.1.1, all_alistSet hsz.1.2 (by simp [hsts])⟩, hsz.2⟩)
          hbal
        exact hh))
    | (rename_i heq; cases h <;> (
        have hsts := sizesOk_storeFile hsz (by assumption)
        have hh := updateJobSpecificFiles_balanceOk heq
          (by simp only [sizesOk, Bool.and_eq_true] at hsz ⊢
              exact ⟨⟨all_alistSet hsz.1.1 (by simp [hsts]), hsz.1.2⟩, hsz.2⟩)
          hbal
        exact hh))
    | (cases h <;> (
        refine ⟨newCommits_commit ?_, ?_, ?_⟩ <;> first
          | (simp only [CacheState.isBalanced, CWorld.commit, decide_eq_true_eq]
              at hbal ⊢
             omega)
          | (have hces := sizesOk_cacheEntry hsz (by assumption)
             simp only [sizesOk, CWorld.commit, Bool.and_eq_true] at hsz ⊢
             exact ⟨⟨all_alistSet hsz.1.1 (by simp [hces]), hsz.1.2⟩, hsz.2⟩)))
    | (rename_i hif x3 w3v hup; cases h <;> (
        have hsts := sizesOk_storeFile hsz (by assumption)
        split at hif <;> first
          | (have ha := accountForNlink2_balanceOk hif
               (by simp only [sizesOk, Bool.and_eq_true] at hsz ⊢
                   exact ⟨⟨all_alistSet hsz.1.1 (by simp [hsts]), hsz.1.2⟩, hsz.2⟩)
               hbal
             have hu := updateJobSpecificFiles_balanceOk hup ha.2.2 ha.2.1
             exact ⟨newCommits_trans ha.1 hu.1, hu.2.1, hu.2.2⟩)
          | (cases hif
             have hu := updateJobSpecificFiles_balanceOk hup
               (by simp only [sizesOk, Bool.and_eq_true] at hsz ⊢
                   exact ⟨⟨all_alistSet hsz.1.1 (by simp [hsts]), hsz.1.2⟩, hsz.2⟩)
               hbal
             exact hu)))
    | (rename_i hif hup; cases h <;> (
        have hsts := sizesOk_storeFile hsz (by assumption)
        split at hif <;> first
          | (have ha := accountForNlink2_balanceOk hif
               (by simp only [sizesOk, Bool.and_eq_true] at hsz ⊢
                   exact ⟨⟨all_alistSet hsz.1.1 (by simp [hsts]), hsz.1.2⟩, hsz.2⟩)
               hbal
             have hu := updateJobSpecificFiles_balanceOk hup ha.2.2 ha.2.1
             exact ⟨newCommits_trans ha.1 hu.1, hu.2.1, hu.2.2⟩)
          | (cases hif
             have hu := updateJobSpecificFiles_balanceOk hup
               (by simp only [sizesOk, Bool.and_eq_true] at hsz ⊢
                   exact ⟨⟨all_alistSet hsz.1.1 (by simp [hsts]), hsz.1.2⟩, hsz.2⟩)
               hbal
             exact hu)))

/-- C1 (amended): `cleanCache` commits only balanced snapshots, and —
whenever every recorded file size is nonnegative and the current cache
state is balanced — so do `writeGlobalFile` and `readGlobalFile`.  The
original claim, quantifying over `deleteLocalFile` as well, is false:
see the counterexample. -/
theorem claim1_amended :
    (∀ (th : Nat) (jid : JobId) (reqs : Int) (w w' : CWorld),
        cleanCacheOp th jid reqs w = .ok w' → sizesOk w = true →
        ∀ x ∈ w'.committed, x ∈ w.committed ∨ x.isBalanced = true) ∧
    (∀ (th : Nat) (jid : JobId) (path : PathId) (il : Bool) (w : CWorld)
        (r : FileId × CWorld), writeGlobalFileC th jid path il w = .ok r →
        sizesOk w = true → w.cs.isBalanced = true →
        ∀ x ∈ r.2.committed, x ∈ w.committed ∨ x.isBalanced = true) ∧
    (∀ (th : Nat) (jid : JobId) (fid : FileId) (up : Option (PathId × Bool))
        (ca mu : Bool) (w : CWorld) (r : PathId × CWorld),
        readGlobalFileC th jid fid up ca mu w = .ok r →
        sizesOk w = true → w.cs.isBalanced = true →
        ∀ x ∈ r.2.committed, x ∈ w.committed ∨ x.isBalanced = true) := by
  refine ⟨?_, ?_, ?_⟩
  · intro th jid reqs w w' h hsz
    exact (cleanCacheOp_balanceOk h hsz).1
  · intro th jid path il w r h hsz hbal
    exact (writeGlobalFileC_balanceOk h hsz hbal).1
  · intro th jid fid up ca mu w r h hsz hbal
    exact (readGlobalFileC_balanceOk h hsz hbal).1

/-- C1 (counterexample): the trace `cleanCache(job1,40);
writeGlobalFile(job1,path0); cleanCache(job2,60);
readGlobalFile(job2,file0); cleanCache(job3,30);
deleteLocalFile(job1,file0)` completes successfully on a 100-byte
budget with nonnegative sizes and a balanced start, yet
`deleteLocalFile` — which adds the file size to `sigmaJob` while the
hard link keeps it in `cached` — commits a snapshot with
`cached + sigmaJob > total`. -/
theorem claim1_counterexample :
    sizesOk cacheWorld0 = true ∧ cacheWorld0.cs.isBalanced = true ∧
    (runCachedOps 1 cacheWorld0 imbalanceTrace).isOk = true ∧
    (runCachedOps 1 cacheWorld0 imbalanceTrace).toOption.any
      (fun w => w.committed.any (fun c => !c.isBalanced)) = true := by
  decide

end C1Balance

end ToilSpec
